import Mathlib

/-!
A sequential (single-threaded) shallow embedding of the non-blocking hash map
(`src/lib.rs`, `src/kvtable.rs`, `src/keyvalue.rs`) and proofs about it.

Modelling conventions:
* Raw pointers to `Key`/`Value` boxes are modelled by the structures themselves;
  a null payload pointer is modelled by `Option.none`.
* The table chain (`_kvs` pointer, `_newkvs` successor pointers) is modelled by
  a list `tables` of all tables ever allocated, in chain order, together with
  `root`, the index the map's `_kvs` pointer refers to.  Table `j`'s `_newkvs`
  pointer is table `j + 1` when it exists (`j + 1 < tables.length`), otherwise
  null.  Promotion advances `root`; old tables stay in the list (the source
  leaks them).
* In a single-threaded run no other thread can write between an atomic load
  and the CAS that uses the loaded value as its expected value, so every CAS
  in the source succeeds on its first attempt; the embedding performs the
  store directly and the (sequentially unreachable) CAS-failure retry paths
  are omitted.
* Pointer equality `p == q` on just-loaded cell pointers is modelled by
  structural equality (in a sequential run a pointer comparison `k == key`
  that the source follows with `(*k) == (*key)` is subsumed by the structural
  comparison, since pointer equality implies structural equality).
* `Instant::now()` / `duration_since(_last_resize) <= 1s` in `resize` is real
  time and not representable; it is abstracted as the boolean `recentResize`
  supplied by the execution context.
* `DefaultHasher` is std library code, abstracted as an arbitrary hash
  function `hashF : K → Nat` in the execution context.
* Unbounded recursion (a `put` restarting in a successor table, copy loops)
  is made total with a fuel parameter; every function returns `none` when the
  fuel runs out.  Fuel is consumed on every call.
* `assert!` calls in the source are noted in comments; the states they guard
  against are unreachable in the executions the theorems below consider.
-/

namespace NBHashMap

/-- Key slot tags, from `keyvalue.rs` (`KeyTypes`). -/
inductive KeyTypes where
  | KeyType
  | KeyTombStone
  | KeyEmpty
deriving DecidableEq

/-- A key cell, from `keyvalue.rs` (`Key<T>`): a tag and a payload pointer
(null modelled as `none`). -/
structure Key (K : Type) where
  _keytype : KeyTypes
  _key : Option K
deriving DecidableEq

/-- `Key::new` -/
def Key.new {K : Type} (k : K) : Key K := ⟨.KeyType, some k⟩

/-- `Key::new_empty` -/
def Key.new_empty {K : Type} : Key K := ⟨.KeyEmpty, none⟩

/-- `Key::new_tombstone` -/
def Key.new_tombstone {K : Type} : Key K := ⟨.KeyTombStone, none⟩

/-- `Key::is_empty` -/
def Key.is_empty {K : Type} (k : Key K) : Bool := k._keytype = .KeyEmpty

/-- `Key::is_tombstone` -/
def Key.is_tombstone {K : Type} (k : Key K) : Bool := k._keytype = .KeyTombStone

/-- `PartialEq for Key<T>` (`keyvalue.rs` lines 89-106).  The source compares
payload pointers and then payload contents; pointer equality implies content
equality, so the disjunction collapses to content equality. -/
def Key.peq {K : Type} [DecidableEq K] (a b : Key K) : Bool :=
  if a._keytype ≠ b._keytype then false
  else match a._keytype with
    | .KeyEmpty => true
    | .KeyTombStone => true
    | .KeyType => a._key = b._key

/-- Value slot tags, from `keyvalue.rs` (`ValueTypes`). -/
inductive ValueTypes where
  | ValueType
  | ValueTombStone
  | ValueEmpty
deriving DecidableEq

/-- A value cell, from `keyvalue.rs` (`Value<T>`): a tag, a payload pointer
(null modelled as `none`) and the prime flag. -/
structure Value (V : Type) where
  _valuetype : ValueTypes
  _value : Option V
  _is_prime : Bool
deriving DecidableEq

/-- `Value::new` -/
def Value.new {V : Type} (v : V) : Value V := ⟨.ValueType, some v, false⟩

/-- `Value::new_empty` -/
def Value.new_empty {V : Type} : Value V := ⟨.ValueEmpty, none, false⟩

/-- `Value::new_tombstone` -/
def Value.new_tombstone {V : Type} : Value V := ⟨.ValueTombStone, none, false⟩

/-- `Value::new_tombprime` -/
def Value.new_tombprime {V : Type} : Value V := ⟨.ValueTombStone, none, true⟩

/-- `Value::is_empty` (the source also asserts `_value.is_null()` agrees with
the tag; that always holds for cells built by the constructors above). -/
def Value.is_empty {V : Type} (v : Value V) : Bool := v._valuetype = .ValueEmpty

/-- `Value::is_tombstone` -/
def Value.is_tombstone {V : Type} (v : Value V) : Bool :=
  v._valuetype = .ValueTombStone

/-- `Value::is_prime` -/
def Value.is_prime {V : Type} (v : Value V) : Bool := v._is_prime

/-- `Value::is_tombprime` -/
def Value.is_tombprime {V : Type} (v : Value V) : Bool :=
  v.is_prime && v.is_tombstone

/-- `Value::get_prime` (same tag and payload, prime flag set; the source's
assert `!is_prime` is unreachable at its call sites below). -/
def Value.get_prime {V : Type} (v : Value V) : Value V := { v with _is_prime := true }

/-- `Value::get_unprime` -/
def Value.get_unprime {V : Type} (v : Value V) : Value V := { v with _is_prime := false }

/-- `PartialEq for Value<T>` (`keyvalue.rs` lines 215-237).  As for keys,
pointer equality on payloads is subsumed by content equality.  Two tombstones
with different prime flags reach the source's null-payload assert (abort);
that case is unreachable in the runs considered here and is modelled as
`false`. -/
def Value.peq {V : Type} [DecidableEq V] (a b : Value V) : Bool :=
  if a._valuetype ≠ b._valuetype then false
  else if a._valuetype = .ValueEmpty then true
  else if a._valuetype = .ValueTombStone then a._is_prime = b._is_prime
  else (a._value = b._value) && (a._is_prime = b._is_prime)

/-- `REPROBE_LIMIT` (`kvtable.rs` line 6). -/
def REPROBE_LIMIT : Nat := 10

/-- `MIN_SIZE_LOG` (`lib.rs` line 19). -/
def MIN_SIZE_LOG : Nat := 3

/-- `MIN_SIZE` (`lib.rs` line 20). -/
def MIN_SIZE : Nat := 1 <<< MIN_SIZE_LOG

/-- The resize control block `CHM` (`kvtable.rs` lines 74-99); the `_newkvs`
pointer is represented by the position of the table in the chain (see the
module comment), the atomic counters by plain naturals. -/
structure CHM where
  _size : Nat
  _slots : Nat
  _copy_done : Nat
  _copy_idx : Nat
  _resizer : Nat
deriving DecidableEq

/-- `CHM::new` -/
def CHM.new : CHM := ⟨0, 0, 0, 0, 0⟩

/-- One table generation `KVs` (`kvtable.rs` lines 9-61). -/
structure KVs (K V : Type) where
  _ks : List (Key K)
  _vs : List (Value V)
  _chm : CHM
  _hashes : List Nat
deriving DecidableEq

/-- `KVs::new` (the `Vec` push loops build arrays of empty cells). -/
def KVs.new (K V : Type) (table_size : Nat) : KVs K V :=
  { _ks := List.replicate table_size Key.new_empty
    _vs := List.replicate table_size Value.new_empty
    _chm := CHM.new
    _hashes := List.replicate table_size 0 }

/-- `KVs::len` -/
def KVs.len {K V : Type} (t : KVs K V) : Nat := t._ks.length

/-- `KVs::table_full` (`kvtable.rs` lines 50-52). -/
def KVs.table_full {K V : Type} (t : KVs K V) (reprobe_cnt : Nat) : Bool :=
  decide (reprobe_cnt ≥ REPROBE_LIMIT) && decide (t._chm._slots ≥ t._ks.length)

/-- `KVs::reprobe_limit` (`kvtable.rs` lines 54-56): note the source shifts
the length LEFT by 2. -/
def KVs.reprobe_limit {K V : Type} (t : KVs K V) : Nat :=
  REPROBE_LIMIT + (t._ks.length <<< 2)

/-- The map (`NonBlockingHashMap`, `lib.rs` lines 61-65): the `_kvs` pointer
is `tables[root]`; `tables` also retains the whole successor chain. -/
structure HMap (K V : Type) where
  tables : List (KVs K V)
  root : Nat
deriving DecidableEq

/-- Execution context: the std `DefaultHasher` abstracted to an arbitrary
hash function, and the `resize` wall-clock test
`duration_since(_last_resize) <= 1s` abstracted to a boolean. -/
structure HashCtx (K : Type) where
  hashF : K → Nat
  recentResize : Bool

/-- The default table returned for an out-of-range chain index (unreachable
in the runs considered here). -/
def KVs.nil (K V : Type) : KVs K V := ⟨[], [], CHM.new, []⟩

/-- Dereference a table pointer: table `j` of the chain. -/
def tbl {K V : Type} (st : HMap K V) (j : Nat) : KVs K V :=
  st.tables.getD j (KVs.nil K V)

/-- Store back table `j` of the chain (out of range: no-op, unreachable). -/
def setTbl {K V : Type} (st : HMap K V) (j : Nat) (t : KVs K V) : HMap K V :=
  { st with tables := st.tables.set j t }

/-- `get_key_nonatomic_at` (`kvtable.rs` lines 42-44). -/
def getKey {K V : Type} (st : HMap K V) (j idx : Nat) : Key K :=
  (tbl st j)._ks.getD idx Key.new_empty

/-- `get_value_nonatomic_at` (`kvtable.rs` lines 46-48). -/
def getVal {K V : Type} (st : HMap K V) (j idx : Nat) : Value V :=
  (tbl st j)._vs.getD idx Value.new_empty

/-- Store into the key cell `idx` of table `j` (a successful key CAS). -/
def setKey {K V : Type} (st : HMap K V) (j idx : Nat) (a : Key K) : HMap K V :=
  setTbl st j { tbl st j with _ks := (tbl st j)._ks.set idx a }

/-- Store into the value cell `idx` of table `j` (a successful value CAS). -/
def setVal {K V : Type} (st : HMap K V) (j idx : Nat) (a : Value V) : HMap K V :=
  setTbl st j { tbl st j with _vs := (tbl st j)._vs.set idx a }

/-- `_hashes[idx] = fullhash` (`lib.rs` line 230). -/
def setHash {K V : Type} (st : HMap K V) (j idx h : Nat) : HMap K V :=
  setTbl st j { tbl st j with _hashes := (tbl st j)._hashes.set idx h }

/-- Update the control block of table `j`. -/
def updCHM {K V : Type} (st : HMap K V) (j : Nat) (f : CHM → CHM) : HMap K V :=
  setTbl st j { tbl st j with _chm := f (tbl st j)._chm }

/-- Modelled from the spec: `CHM::has_newkvs` is used by `lib.rs` but its
definition (and the `_has_newkvs` field assigned at `lib.rs` line 144) is
missing from the `kvtable.rs` in the tree; per the spec the successor pointer
is "null until resize begins", so `has_newkvs` tests that `_newkvs` is
non-null, i.e. that table `j + 1` of the chain exists. -/
def hasNewkvs {K V : Type} (st : HMap K V) (j : Nat) : Bool :=
  j + 1 < st.tables.length

/-- Hash of a boxed key (`(*key).hash(&mut hasher); hasher.finish()`): the
hash of the payload; a null payload (never hashed in the runs considered)
gets 0. -/
def keyHash {K : Type} (c : HashCtx K) (k : Key K) : Nat :=
  match k._key with
  | some x => c.hashF x
  | none => 0

/-- The `while 1 << i < target { i += 1 }` loops of `new_with_size`
(`lib.rs` lines 77-80) and `resize` (`lib.rs` lines 122-125), made structural
with a step counter (`log2ge` below supplies a sufficient one). -/
def log2geAux (steps i target : Nat) : Nat :=
  match steps with
  | 0 => i
  | steps + 1 => if 1 <<< i < target then log2geAux steps (i + 1) target else i

/-- Smallest `j ≥ i` with `1 <<< j ≥ target` (the loop above runs to
completion because `target < 2 ^ (i + target)`). -/
def log2ge (i target : Nat) : Nat := log2geAux target i target

/-- `NonBlockingHashMap::new_with_size` (`lib.rs` lines 72-87). -/
def new_with_size (K V : Type) (initial_sz : Nat) : HMap K V :=
  let initial_sz := if initial_sz > 1024 * 1024 then 1024 * 1024 else initial_sz
  let i := log2ge MIN_SIZE_LOG (initial_sz <<< 2)
  { tables := [KVs.new K V (1 <<< i)], root := 0 }

/-- `NonBlockingHashMap::new` (`lib.rs` lines 68-70). -/
def new (K V : Type) : HMap K V := new_with_size K V MIN_SIZE

/-- `NonBlockingHashMap::capacity` (`lib.rs` lines 606-608). -/
def capacity {K V : Type} (st : HMap K V) : Nat := (tbl st st.root).len

/-- `MatchingTypes` (`lib.rs` lines 25-30). -/
inductive MatchingTypes where
  | MatchAll
  | MatchAllNotEmpty
  | MatchValue
  | FromCopySlot
deriving DecidableEq

/-- The new-size computation of `NonBlockingHashMap::resize` (`lib.rs` lines
99-120): grow by 2x when at least a quarter full, by 4x when at least half
full, bump a same-or-smaller size by 2x on tombstone saturation right after
a recent resize, and never shrink. -/
def resize_newsz {K V : Type} (c : HashCtx K) (st : HMap K V) (j : Nat) :
    Nat :=
  let oldlen := (tbl st j).len
  let sz := (tbl st j)._chm._size
  let newsz :=
    if sz ≥ oldlen >>> 2 then
      if sz ≥ oldlen >>> 1 then oldlen <<< 2 else oldlen <<< 1
    else sz
  let newsz :=
    if newsz ≤ oldlen ∧ c.recentResize ∧ (tbl st j)._chm._slots ≥ sz <<< 1
    then oldlen <<< 1 else newsz
  if newsz < oldlen then oldlen else newsz

/-- `NonBlockingHashMap::resize` (`lib.rs` lines 93-150), sequential: the
`_newkvs` CAS succeeds (nothing can intervene between its load and the CAS),
so the losing-thread branch at lines 146-148 is unreachable; `rehash()` is a
no-op.  Returns the successor table (as a chain index) and the new state. -/
def resize {K V : Type} (c : HashCtx K) (st : HMap K V) (j : Nat) :
    Nat × HMap K V :=
  if hasNewkvs st j then (j + 1, st)
  else
    let log2 := log2ge MIN_SIZE_LOG (resize_newsz c st j)
    if hasNewkvs st j then (j + 1, st)
    else
      if hasNewkvs st j then (j + 1, st)
      else
        (j + 1, { st with tables := st.tables ++ [KVs.new K V (1 <<< log2)] })

/-- `NonBlockingHashMap::copy_check_and_promote` (`lib.rs` lines 405-433),
sequential: the `_copy_done` CAS retry loop runs once; promotion is the CAS
swinging `_kvs` from table `j` to `j + 1`, i.e. `root := j + 1` when `root`
is still `j` (the `_last_resize` store only affects the abstracted clock). -/
def copy_check_and_promote {K V : Type} (st : HMap K V) (j work_done : Nat) :
    HMap K V :=
  let oldlen := (tbl st j).len
  let copy_done := (tbl st j)._chm._copy_done
  let st :=
    if work_done > 0 then
      updCHM st j (fun chm => { chm with _copy_done := copy_done + work_done })
    else st
  if copy_done + work_done = oldlen ∧ st.root = j then
    { st with root := j + 1 }
  else st

/-- The CAS-success block of `put_if_match_impl` (`lib.rs` lines 304-317):
store the new value, update `_size` when `expval_not_empty`, and pick the
return value (a fresh tombstone sentinel when the prior value was empty and
`expval_not_empty`). -/
def put_cas_success {K V : Type} (st : HMap K V) (j idx : Nat)
    (v putval : Value V) (ent : Bool) : Value V × HMap K V :=
  let st := setVal st j idx putval
  let st :=
    if ent then
      let st :=
        if (v.is_empty || v.is_tombstone) && !putval.is_tombstone then
          updCHM st j (fun chm => { chm with _size := chm._size + 1 })
        else st
      if !(v.is_empty || v.is_tombstone) && putval.is_tombstone then
        updCHM st j (fun chm => { chm with _size := chm._size - 1 })
      else st
    else st
  (if v.is_empty && ent then Value.new_tombstone else v, st)

/-- `expval_not_empty` (`lib.rs` lines 211-219): false only for
`MatchValue` with an empty expected value (the copy-slot path). -/
def expvalNotEmpty {V : Type} (mt : MatchingTypes) (expval : Option (Value V)) :
    Bool :=
  match mt, expval with
  | .MatchValue, some e => !e.is_empty
  | .MatchValue, none => false
  | _, _ => true

mutual

/-- `NonBlockingHashMap::put_if_match_impl` (`lib.rs` lines 186-325), entry:
compute the hash, the home index, `expval_not_empty`, and start probing.
The asserts at lines 196-201 hold at every call site considered here. -/
def put_if_match_impl {K V : Type} [DecidableEq K] [DecidableEq V]
    (c : HashCtx K) (fuel : Nat) (st : HMap K V) (j : Nat) (key : Key K)
    (putval : Value V) (mt : MatchingTypes) (expval : Option (Value V)) :
    Option (Value V × HMap K V) :=
  match fuel with
  | 0 => none
  | fuel + 1 =>
    let fullhash := keyHash c key
    let len := (tbl st j).len
    let idx := fullhash &&& (len - 1)
    putProbe c fuel st j key putval mt expval (expvalNotEmpty mt expval)
      fullhash len idx 0
termination_by structural fuel

/-- The probe/re-probe loop of `put_if_match_impl` (`lib.rs` lines 221-254).
Sequentially the key CAS at line 227 succeeds, so the reload-and-retry after
a failed CAS (lines 233-235) is unreachable. -/
def putProbe {K V : Type} [DecidableEq K] [DecidableEq V]
    (c : HashCtx K) (fuel : Nat) (st : HMap K V) (j : Nat) (key : Key K)
    (putval : Value V) (mt : MatchingTypes) (expval : Option (Value V))
    (ent : Bool) (fullhash len idx reprobe_cnt : Nat) :
    Option (Value V × HMap K V) :=
  match fuel with
  | 0 => none
  | fuel + 1 =>
    let k := getKey st j idx
    if k.is_empty then
      -- Found an available key slot
      if putval.is_tombstone then some (putval, st)
      else
        -- CAS the key in (succeeds), bump `_slots`, record the hash
        let st := setKey st j idx key
        let st := updCHM st j (fun chm => { chm with _slots := chm._slots + 1 })
        let st := setHash st j idx fullhash
        putWrite c fuel st j key putval mt expval ent idx reprobe_cnt
    else if k.peq key then
      putWrite c fuel st j key putval mt expval ent idx reprobe_cnt
    else
      let reprobe_cnt := reprobe_cnt + 1
      if reprobe_cnt ≥ REPROBE_LIMIT || key.is_tombstone then
        let rs := resize c st j
        match (if ent then help_copy c fuel rs.2 else some rs.2) with
        | none => none
        | some st => put_if_match_impl c fuel st rs.1 key putval mt expval
      else
        putProbe c fuel st j key putval mt expval ent fullhash len
          ((idx + 1) &&& (len - 1)) reprobe_cnt
termination_by structural fuel

/-- The write phase of `put_if_match_impl` (`lib.rs` lines 257-324).  The
value cell is unchanged since the probe loaded it, so it is re-read here;
sequentially the value CAS at line 304 succeeds, making the retry/prime
re-check at lines 319-323 unreachable. -/
def putWrite {K V : Type} [DecidableEq K] [DecidableEq V]
    (c : HashCtx K) (fuel : Nat) (st : HMap K V) (j : Nat) (key : Key K)
    (putval : Value V) (mt : MatchingTypes) (expval : Option (Value V))
    (ent : Bool) (idx reprobe_cnt : Nat) : Option (Value V × HMap K V) :=
  match fuel with
  | 0 => none
  | fuel + 1 =>
    let v := getVal st j idx
    if putval.peq v then some (v, st)
    else
      let st :=
        if hasNewkvs st j &&
            ((v.is_tombstone && (tbl st j).table_full reprobe_cnt) || v.is_prime)
        then (resize c st j).2 else st
      if hasNewkvs st j then
        let expval_is_empty :=
          match expval with
          | some e => e.is_empty
          | none => true
        match copy_slot_and_check c fuel st j idx (!expval_is_empty) with
        | none => none
        | some (ckvs, st) =>
          put_if_match_impl c fuel st ckvs key putval mt expval
      else
        -- this table is the newest (assert: `v` is not primed); match check
        if mt ≠ .MatchAll &&
            !(mt = .MatchAllNotEmpty && !v.is_tombstone && !v.is_empty) then
          -- assert: expval is some and mt = MatchValue
          let e := (expval.getD Value.new_empty)
          if !(v.is_empty && e.is_tombstone) && !(e.peq v) then some (v, st)
          else some (put_cas_success st j idx v putval ent)
        else some (put_cas_success st j idx v putval ent)
termination_by structural fuel

/-- `NonBlockingHashMap::get_impl_supply_hash` entry (`lib.rs` lines
342-350): compute the table length and home index, then probe. -/
def get_impl_supply_hash {K V : Type} [DecidableEq K] [DecidableEq V]
    (c : HashCtx K) (fuel : Nat) (st : HMap K V) (j : Nat) (key : Key K)
    (fullhash : Nat) : Option (Option (Value V) × HMap K V) :=
  match fuel with
  | 0 => none
  | fuel + 1 =>
    let len := (tbl st j).len
    getLoop c fuel st j key fullhash len (fullhash &&& (len - 1)) 0
termination_by structural fuel

/-- The probe loop of `get_impl_supply_hash` (`lib.rs` lines 351-384). -/
def getLoop {K V : Type} [DecidableEq K] [DecidableEq V]
    (c : HashCtx K) (fuel : Nat) (st : HMap K V) (j : Nat) (key : Key K)
    (fullhash len idx reprobe_cnt : Nat) :
    Option (Option (Value V) × HMap K V) :=
  match fuel with
  | 0 => none
  | fuel + 1 =>
    let k := getKey st j idx
    let v := getVal st j idx
    if k.is_empty then some (none, st)
    else if k.peq key then
      if !v.is_prime then
        if v.is_tombstone then some (none, st) else some (some v, st)
      else
        match copy_slot_and_check c fuel st j idx true with
        | none => none
        | some (t, st) => get_impl_supply_hash c fuel st t key fullhash
    else
      let reprobe_cnt := reprobe_cnt + 1
      if reprobe_cnt ≥ REPROBE_LIMIT || k.is_tombstone then
        if hasNewkvs st j then
          match help_copy c fuel st with
          | none => none
          | some st => get_impl_supply_hash c fuel st (j + 1) key fullhash
        else some (none, st)
      else
        getLoop c fuel st j key fullhash len ((idx + 1) &&& (len - 1))
          reprobe_cnt
termination_by structural fuel

/-- `NonBlockingHashMap::copy_slot` (`lib.rs` lines 435-523), sequential:
each CAS succeeds on its first attempt, so each of the source's three retry
loops runs at most one mutating iteration. -/
def copy_slot {K V : Type} [DecidableEq K] [DecidableEq V]
    (c : HashCtx K) (fuel : Nat) (st : HMap K V) (j idx : Nat) :
    Option (Bool × HMap K V) :=
  match fuel with
  | 0 => none
  | fuel + 1 =>
    let key := getKey st j idx
    -- State transition: {Empty, Empty} -> {KeyTombStone, Empty}
    if key.is_empty then some (true, setKey st j idx Key.new_tombstone)
    -- Enter state: {KeyTombStone, Empty}
    else if key.is_tombstone then some (false, st)
    else
      -- freeze the value (prime it)
      let oldvalue := getVal st j idx
      let frozen : Option (Value V) × HMap K V :=
        if !oldvalue.is_prime then
          let primed :=
            if oldvalue.is_empty then (Value.new_tombstone : Value V).get_prime
            else oldvalue.get_prime
          let st := setVal st j idx primed
          if primed._valuetype = .ValueTombStone then (none, st)
          else (some primed, st)
        else (some oldvalue, st)
      match frozen with
      | (none, st) => some (true, st)
      | (some oldvalue, st) =>
        -- Enter state: {Key, ValueTombPrime}
        if oldvalue.is_tombprime then some (false, st)
        else
          -- transfer to the successor (assert: the unprimed value is not a
          -- tombprime), then retire the old slot
          let old_unprimed := oldvalue.get_unprime
          match
            put_if_match_impl c fuel st (j + 1) key old_unprimed .MatchValue
              (some Value.new_empty) with
          | none => none
          | some (_, st) =>
            let oldvalue := getVal st j idx
            if oldvalue.is_tombprime then some (false, st)
            else some (true, setVal st j idx Value.new_tombprime)
termination_by structural fuel

/-- `NonBlockingHashMap::copy_slot_and_check` (`lib.rs` lines 387-403); the
assert that the successor exists holds at every call site considered here. -/
def copy_slot_and_check {K V : Type} [DecidableEq K] [DecidableEq V]
    (c : HashCtx K) (fuel : Nat) (st : HMap K V) (j idx : Nat)
    (should_help : Bool) : Option (Nat × HMap K V) :=
  match fuel with
  | 0 => none
  | fuel + 1 =>
    match copy_slot c fuel st j idx with
    | none => none
    | some (b, st) =>
      let st := if b then copy_check_and_promote st j 1 else st
      match (if should_help then help_copy c fuel st else some st) with
      | none => none
      | some st => some (j + 1, st)
termination_by structural fuel

/-- `NonBlockingHashMap::help_copy` (`lib.rs` lines 525-530). -/
def help_copy {K V : Type} [DecidableEq K] [DecidableEq V]
    (c : HashCtx K) (fuel : Nat) (st : HMap K V) : Option (HMap K V) :=
  match fuel with
  | 0 => none
  | fuel + 1 =>
    if hasNewkvs st st.root then help_copy_impl c fuel st st.root false
    else some st
termination_by structural fuel

/-- `NonBlockingHashMap::help_copy_impl` (`lib.rs` lines 532-578), header:
compute the chunk size and enter the copy loop. -/
def help_copy_impl {K V : Type} [DecidableEq K] [DecidableEq V]
    (c : HashCtx K) (fuel : Nat) (st : HMap K V) (j : Nat) (copy_all : Bool) :
    Option (HMap K V) :=
  match fuel with
  | 0 => none
  | fuel + 1 =>
    let oldlen := (tbl st j).len
    let min_copy_work := min oldlen 1024
    helpCopyLoop c fuel st j copy_all oldlen min_copy_work false 0
termination_by structural fuel

/-- The `while copy_done < oldlen` loop of `help_copy_impl` (`lib.rs` lines
540-577).  Sequentially the `_copy_idx` claim CAS succeeds at once, so the
claim retry loop runs a single iteration. -/
def helpCopyLoop {K V : Type} [DecidableEq K] [DecidableEq V]
    (c : HashCtx K) (fuel : Nat) (st : HMap K V) (j : Nat) (copy_all : Bool)
    (oldlen min_copy_work : Nat) (panic_start : Bool) (copy_idx : Nat) :
    Option (HMap K V) :=
  match fuel with
  | 0 => none
  | fuel + 1 =>
    if (tbl st j)._chm._copy_done < oldlen then
      let claim : Bool × Nat × HMap K V :=
        if !panic_start then
          let ci := (tbl st j)._chm._copy_idx
          if ci < oldlen <<< 1 then
            (false, ci,
              updCHM st j (fun chm => { chm with _copy_idx := ci + min_copy_work }))
          else (true, ci, st)
        else (panic_start, copy_idx, st)
      match claim with
      | (panic_start, copy_idx, st) =>
        match copyChunk c fuel st j copy_idx (oldlen - 1) 0 min_copy_work with
        | none => none
        | some (work_done, st) =>
          let st :=
            if work_done > 0 then copy_check_and_promote st j work_done else st
          let copy_idx := copy_idx + min_copy_work
          if !copy_all && !panic_start then some st
          else helpCopyLoop c fuel st j copy_all oldlen min_copy_work
            panic_start copy_idx
    else some (copy_check_and_promote st j 0)
termination_by structural fuel

/-- The `for i in 0..min_copy_work` slot-copy loop of `help_copy_impl`
(`lib.rs` lines 561-566): copy `n` slots starting at offset `i` from
`base`, all indices masked by `oldlen - 1`; returns the number of
successful copies. -/
def copyChunk {K V : Type} [DecidableEq K] [DecidableEq V]
    (c : HashCtx K) (fuel : Nat) (st : HMap K V) (j base mask i n : Nat) :
    Option (Nat × HMap K V) :=
  match fuel with
  | 0 => none
  | fuel + 1 =>
    match n with
    | 0 => some (0, st)
    | n + 1 =>
      match copy_slot c fuel st j ((base + i) &&& mask) with
      | none => none
      | some (b, st) =>
        match copyChunk c fuel st j base mask (i + 1) n with
        | none => none
        | some (w, st) => some ((if b then 1 else 0) + w, st)
termination_by structural fuel

end

/-- Interpreter fuel for the public wrappers; consumed only on actual calls,
ample for every run considered here. -/
def FUEL : Nat := 1000000

/-- `NonBlockingHashMap::put` (`lib.rs` lines 152-154, via `put_if_match`
lines 156-165 and `put_if_match_to_kvs` lines 167-184): insert with
`MatchAll` and no expected value, starting at the current table.  Returns
the `Value` box whose `_value` payload the source then dereferences. -/
def put {K V : Type} [DecidableEq K] [DecidableEq V]
    (c : HashCtx K) (st : HMap K V) (k : K) (v : V) :
    Option (Value V × HMap K V) :=
  put_if_match_impl c FUEL st st.root (Key.new k) (Value.new v) .MatchAll none

/-- `NonBlockingHashMap::get` (`lib.rs` lines 327-340): hash the boxed key,
run the lookup from the current table, and dereference the payload of the
returned value box (null payload modelled as `none`). -/
def get {K V : Type} [DecidableEq K] [DecidableEq V]
    (c : HashCtx K) (st : HMap K V) (k : K) : Option (Option V × HMap K V) :=
  (get_impl_supply_hash c FUEL st st.root (Key.new k)
      (keyHash c (Key.new k))).map
    (fun p => (p.1.bind (fun val => val._value), p.2))

/-! ### Invariant predicates -/

/-- `n` is a power of two (step-counted halving; `isPow2` supplies a
sufficient counter). -/
def isPow2Aux : Nat → Nat → Bool
  | 0, _ => false
  | fuel + 1, n =>
    if n = 1 then true
    else if n % 2 = 1 then false
    else if n = 0 then false
    else isPow2Aux fuel (n / 2)

/-- `n` is a power of two. -/
def isPow2 (n : Nat) : Bool := isPow2Aux n n

/-- A legal table length: a power of two that is at least
`2 ^ MIN_SIZE_LOG = MIN_SIZE = 8`. -/
def IsGoodLen (n : Nat) : Prop := isPow2 n = true ∧ MIN_SIZE ≤ n

instance : DecidablePred IsGoodLen := fun _ => by unfold IsGoodLen; infer_instance

/-- Every table ever allocated in the chain has a legal length. -/
def GoodLens {K V : Type} (st : HMap K V) : Prop :=
  ∀ t ∈ st.tables, IsGoodLen t.len

instance {K V : Type} (st : HMap K V) : Decidable (GoodLens st) := by
  unfold GoodLens; infer_instance

/-- No value cell in any table of the chain holds an unprimed tombstone. -/
def NoUnprimedTomb {K V : Type} (st : HMap K V) : Prop :=
  ∀ t ∈ st.tables, ∀ v ∈ t._vs, ¬(v.is_tombstone = true ∧ v.is_prime = false)

instance {K V : Type} (st : HMap K V) : Decidable (NoUnprimedTomb st) := by
  unfold NoUnprimedTomb; infer_instance

/-- Tables are only appended to the chain, table lengths never change, and no
table's `_size` (live-entry count) ever decreases. -/
def SizesMono {K V : Type} (st st' : HMap K V) : Prop :=
  st.tables.length ≤ st'.tables.length ∧
    ∀ j < st.tables.length,
      (tbl st' j).len = (tbl st j).len ∧
        (tbl st j)._chm._size ≤ (tbl st' j)._chm._size

instance {K V : Type} (st st' : HMap K V) : Decidable (SizesMono st st') := by
  unfold SizesMono; infer_instance

/-- What one sequential interpreter step preserves: both invariants above,
plus chain/length/size monotonicity. -/
def Pres {K V : Type} (st st' : HMap K V) : Prop :=
  (GoodLens st → GoodLens st') ∧ (NoUnprimedTomb st → NoUnprimedTomb st') ∧
    SizesMono st st'

/-! ### Concrete objects used by counterexamples and witnesses -/

/-- A concrete execution context over `Nat` keys: the identity hash, clock
reporting the last resize as not recent. -/
def idCtx : HashCtx Nat := ⟨fun n => n, false⟩

/-- A length-64 table in which keys `100..109` occupy slots `0..9` and key
`64` (whose home index is `64 &&& 63 = 0`) sits at probe distance 10, in
slot 10, with value 7. -/
def c2kvs : KVs Nat Nat :=
  { _ks := (List.range 64).map (fun i =>
      if i < 10 then Key.new (100 + i)
      else if i = 10 then Key.new 64 else Key.new_empty)
    _vs := (List.range 64).map (fun i =>
      if i < 10 then Value.new i
      else if i = 10 then Value.new 7 else Value.new_empty)
    _chm := { CHM.new with _size := 11, _slots := 11 }
    _hashes := (List.range 64).map (fun i => if i ≤ 10 then i else 0) }

/-- A map whose single (current) table is `c2kvs`. -/
def c2st : HMap Nat Nat := ⟨[c2kvs], 0⟩

/-- A map mid-resize: a fresh length-8 table with a length-16 successor. -/
def midCopySt : HMap Nat Nat := ⟨[KVs.new Nat Nat 8, KVs.new Nat Nat 16], 0⟩

/-! ### Preservation statements, one per interpreter function (used as the
simultaneous induction hypotheses of the master preservation theorem). -/

def PresPutImpl {K V : Type} [DecidableEq K] [DecidableEq V] (c : HashCtx K)
    (fuel : Nat) : Prop :=
  ∀ (st : HMap K V) (j : Nat) (key : Key K) (putval : Value V)
    (mt : MatchingTypes) (expval : Option (Value V)) (r : Value V)
    (st' : HMap K V), putval.is_tombstone = false →
    put_if_match_impl c fuel st j key putval mt expval = some (r, st') →
    Pres st st'

def PresPutProbe {K V : Type} [DecidableEq K] [DecidableEq V] (c : HashCtx K)
    (fuel : Nat) : Prop :=
  ∀ (st : HMap K V) (j : Nat) (key : Key K) (putval : Value V)
    (mt : MatchingTypes) (expval : Option (Value V)) (ent : Bool)
    (fullhash len idx cnt : Nat) (r : Value V) (st' : HMap K V),
    putval.is_tombstone = false →
    putProbe c fuel st j key putval mt expval ent fullhash len idx cnt =
      some (r, st') → Pres st st'

def PresPutWrite {K V : Type} [DecidableEq K] [DecidableEq V] (c : HashCtx K)
    (fuel : Nat) : Prop :=
  ∀ (st : HMap K V) (j : Nat) (key : Key K) (putval : Value V)
    (mt : MatchingTypes) (expval : Option (Value V)) (ent : Bool)
    (idx cnt : Nat) (r : Value V) (st' : HMap K V),
    putval.is_tombstone = false →
    putWrite c fuel st j key putval mt expval ent idx cnt = some (r, st') →
    Pres st st'

def PresGetImpl {K V : Type} [DecidableEq K] [DecidableEq V] (c : HashCtx K)
    (fuel : Nat) : Prop :=
  ∀ (st : HMap K V) (j : Nat) (key : Key K) (fullhash : Nat)
    (r : Option (Value V)) (st' : HMap K V),
    get_impl_supply_hash c fuel st j key fullhash = some (r, st') →
    Pres st st'

def PresGetLoop {K V : Type} [DecidableEq K] [DecidableEq V] (c : HashCtx K)
    (fuel : Nat) : Prop :=
  ∀ (st : HMap K V) (j : Nat) (key : Key K) (fullhash len idx cnt : Nat)
    (r : Option (Value V)) (st' : HMap K V),
    getLoop c fuel st j key fullhash len idx cnt = some (r, st') →
    Pres st st'

def PresCopySlot {K V : Type} [DecidableEq K] [DecidableEq V] (c : HashCtx K)
    (fuel : Nat) : Prop :=
  ∀ (st : HMap K V) (j idx : Nat) (b : Bool) (st' : HMap K V),
    copy_slot c fuel st j idx = some (b, st') → Pres st st'

def PresCopySlotCheck {K V : Type} [DecidableEq K] [DecidableEq V]
    (c : HashCtx K) (fuel : Nat) : Prop :=
  ∀ (st : HMap K V) (j idx : Nat) (sh : Bool) (t : Nat) (st' : HMap K V),
    copy_slot_and_check c fuel st j idx sh = some (t, st') → Pres st st'

def PresHelpCopy {K V : Type} [DecidableEq K] [DecidableEq V]
    (c : HashCtx K) (fuel : Nat) : Prop :=
  ∀ (st st' : HMap K V), help_copy c fuel st = some st' → Pres st st'

def PresHelpCopyImpl {K V : Type} [DecidableEq K] [DecidableEq V]
    (c : HashCtx K) (fuel : Nat) : Prop :=
  ∀ (st : HMap K V) (j : Nat) (ca : Bool) (st' : HMap K V),
    help_copy_impl c fuel st j ca = some st' → Pres st st'

def PresHelpCopyLoop {K V : Type} [DecidableEq K] [DecidableEq V]
    (c : HashCtx K) (fuel : Nat) : Prop :=
  ∀ (st : HMap K V) (j : Nat) (ca : Bool) (oldlen mcw : Nat) (ps : Bool)
    (ci : Nat) (st' : HMap K V),
    helpCopyLoop c fuel st j ca oldlen mcw ps ci = some st' → Pres st st'

def PresCopyChunk {K V : Type} [DecidableEq K] [DecidableEq V]
    (c : HashCtx K) (fuel : Nat) : Prop :=
  ∀ (st : HMap K V) (j base mask i n w : Nat) (st' : HMap K V),
    copyChunk c fuel st j base mask i n = some (w, st') → Pres st st'

/-- The conjunction of all per-function preservation statements. -/
def PresAll {K V : Type} [DecidableEq K] [DecidableEq V] (c : HashCtx K)
    (fuel : Nat) : Prop :=
  PresPutImpl (K := K) (V := V) c fuel ∧ PresPutProbe (K := K) (V := V) c fuel ∧
    PresPutWrite (K := K) (V := V) c fuel ∧
    PresGetImpl (K := K) (V := V) c fuel ∧
    PresGetLoop (K := K) (V := V) c fuel ∧
    PresCopySlot (K := K) (V := V) c fuel ∧
    PresCopySlotCheck (K := K) (V := V) c fuel ∧
    PresHelpCopy (K := K) (V := V) c fuel ∧
    PresHelpCopyImpl (K := K) (V := V) c fuel ∧
    PresHelpCopyLoop (K := K) (V := V) c fuel ∧
    PresCopyChunk (K := K) (V := V) c fuel

/-! ## Theorems -/

/-! ### List and arithmetic helpers -/

theorem getD_replicate {α : Type} (n i : Nat) (a : α) :
    (List.replicate n a).getD i a = a := by
  rw [List.getD_eq_getElem?_getD, List.getElem?_replicate]
  split <;> rfl

theorem getD_set_self {α : Type} (l : List α) (i : Nat) (a d : α)
    (h : i < l.length) : (l.set i a).getD i d = a := by
  rw [List.getD_eq_getElem?_getD, List.getElem?_set]
  simp [h]

theorem getD_set_ne {α : Type} (l : List α) (i j : Nat) (a d : α)
    (h : i ≠ j) : (l.set i a).getD j d = l.getD j d := by
  rw [List.getD_eq_getElem?_getD, List.getElem?_set, if_neg h,
    ← List.getD_eq_getElem?_getD]

theorem set_of_length_le {α : Type} :
    ∀ (l : List α) (i : Nat) (a : α), l.length ≤ i → l.set i a = l := by
  intro l
  induction l with
  | nil => intro i a _; rfl
  | cons x xs ih =>
    intro i a h
    cases i with
    | zero => simp at h
    | succ i => simp only [List.set]; rw [ih i a (by simpa using h)]

theorem getD_append_left {α : Type} (l l' : List α) (d : α) (n : Nat)
    (h : n < l.length) : (l ++ l').getD n d = l.getD n d :=
  List.getD_append l l' d n h

theorem log2geAux_le (steps : Nat) : ∀ (i target : Nat),
    i ≤ log2geAux steps i target := by
  induction steps with
  | zero => intro i target; simp [log2geAux]
  | succ n ih =>
    intro i target
    simp only [log2geAux]
    split
    · exact le_trans (Nat.le_succ i) (ih (i + 1) target)
    · exact Nat.le_refl i

theorem log2geAux_ge (steps : Nat) : ∀ (i target : Nat),
    target ≤ 1 <<< (i + steps) → target ≤ 1 <<< log2geAux steps i target := by
  induction steps with
  | zero => intro i target h; simpa [log2geAux] using h
  | succ n ih =>
    intro i target h
    simp only [log2geAux]
    split
    · exact ih (i + 1) target (by rw [show i + 1 + n = i + (n + 1) by omega]; exact h)
    · omega

theorem log2geAux_min (steps : Nat) : ∀ (i target jj : Nat), i ≤ jj →
    target ≤ 1 <<< jj → log2geAux steps i target ≤ jj := by
  induction steps with
  | zero => intro i target jj hij _; simpa [log2geAux] using hij
  | succ n ih =>
    intro i target jj hij hj
    simp only [log2geAux]
    split
    · refine ih (i + 1) target jj ?_ hj
      rcases Nat.lt_or_ge i jj with h' | h'
      · omega
      · exfalso
        have : i = jj := Nat.le_antisymm hij h'
        subst this
        omega
    · exact hij

theorem log2ge_ge (i target : Nat) : target ≤ 1 <<< log2ge i target := by
  refine log2geAux_ge target i target ?_
  calc target ≤ 2 ^ target := Nat.le_of_lt (Nat.lt_two_pow target)
    _ ≤ 2 ^ (i + target) := Nat.pow_le_pow_right (by norm_num) (by omega)
    _ = 1 <<< (i + target) := (Nat.one_shiftLeft _).symm

theorem log2ge_le_self (i target : Nat) : i ≤ log2ge i target :=
  log2geAux_le target i target

theorem log2ge_min (i target jj : Nat) (hij : i ≤ jj)
    (hj : target ≤ 1 <<< jj) : log2ge i target ≤ jj :=
  log2geAux_min target i target jj hij hj

theorem isPow2Aux_two_pow :
    ∀ (i fuel : Nat), i ≤ fuel → isPow2Aux (fuel + 1) (2 ^ i) = true := by
  intro i
  induction i with
  | zero => intro fuel _; simp [isPow2Aux]
  | succ n ih =>
    intro fuel hf
    have h2 : (2 : Nat) ^ 1 ≤ 2 ^ (n + 1) := Nat.pow_le_pow_right (by norm_num) (by omega)
    have hne1 : 2 ^ (n + 1) ≠ 1 := by omega
    have hmod : 2 ^ (n + 1) % 2 = 0 := by
      rw [pow_succ]; exact Nat.mul_mod_left _ _
    have hne0 : 2 ^ (n + 1) ≠ 0 := by omega
    have hdiv : 2 ^ (n + 1) / 2 = 2 ^ n := by
      rw [pow_succ]; exact Nat.mul_div_cancel _ (by norm_num)
    obtain ⟨f, rfl⟩ : ∃ f, fuel = f + 1 := ⟨fuel - 1, by omega⟩
    show isPow2Aux (f + 1 + 1) (2 ^ (n + 1)) = true
    simp only [isPow2Aux]
    rw [if_neg hne1, if_neg (by omega), if_neg hne0, hdiv]
    exact ih f (by omega)

theorem isPow2_two_pow (i : Nat) : isPow2 (2 ^ i) = true := by
  have h1 : (1 : Nat) ≤ 2 ^ i := Nat.one_le_two_pow
  have hi : i < 2 ^ i := Nat.lt_two_pow i
  have : isPow2 (2 ^ i) = isPow2Aux ((2 ^ i - 1) + 1) (2 ^ i) := by
    unfold isPow2; congr 1; omega
  rw [this]
  exact isPow2Aux_two_pow i (2 ^ i - 1) (by omega)

theorem isPow2_shiftLeft (i : Nat) : isPow2 (1 <<< i) = true := by
  rw [Nat.one_shiftLeft]; exact isPow2_two_pow i

theorem IsGoodLen_shiftLeft (i : Nat) (h : MIN_SIZE_LOG ≤ i) :
    IsGoodLen (1 <<< i) := by
  refine ⟨isPow2_shiftLeft i, ?_⟩
  rw [Nat.one_shiftLeft]
  calc MIN_SIZE = 2 ^ MIN_SIZE_LOG := by decide
    _ ≤ 2 ^ i := Nat.pow_le_pow_right (by norm_num) h

theorem shiftLeft_le_shiftLeft (a b : Nat) (h : a ≤ b) :
    1 <<< a ≤ 1 <<< b := by
  rw [Nat.one_shiftLeft, Nat.one_shiftLeft]
  exact Nat.pow_le_pow_right (by norm_num) h

/-! ### Table construction facts -/

theorem len_KVs_new (K V : Type) (n : Nat) : (KVs.new K V n).len = n := by
  simp [KVs.new, KVs.len]

theorem capacity_new_with_size (K V : Type) (sz : Nat) :
    capacity (new_with_size K V sz) =
      1 <<< log2ge MIN_SIZE_LOG
        ((if sz > 1024 * 1024 then 1024 * 1024 else sz) <<< 2) := by
  simp [capacity, new_with_size, tbl, KVs.len, KVs.new]

theorem clamp_eq_min (sz : Nat) :
    (if sz > 1024 * 1024 then 1024 * 1024 else sz) = min sz (2 ^ 20) := by
  rw [Nat.min_def]
  split <;> split <;> omega

/-! ### Claim C6 -/

/-- C6 counterexample: the claim states that `new()` creates a map whose
capacity equals `MIN_SIZE = 8`; in fact `new()` delegates to
`new_with_size(MIN_SIZE)`, which quadruples the hint, so the capacity is
32. -/
theorem C6_counterexample :
    capacity (new Nat Nat) = 32 ∧ capacity (new Nat Nat) ≠ MIN_SIZE := by
  rw [show new Nat Nat = new_with_size Nat Nat MIN_SIZE from rfl,
    capacity_new_with_size]
  constructor
  · decide
  · decide

/-- C6 (amended): `new()` creates the map via `new_with_size(MIN_SIZE)` with
`MIN_SIZE = 8`, and the resulting initial table length, as reported by
`capacity()`, is 32 (the smallest power of two that is at least
`MIN_SIZE << 2`), not `MIN_SIZE` itself. -/
theorem C6_new_default_capacity (K V : Type) :
    new K V = new_with_size K V MIN_SIZE ∧ capacity (new K V) = 32 := by
  refine ⟨rfl, ?_⟩
  rw [show new K V = new_with_size K V MIN_SIZE from rfl,
    capacity_new_with_size]
  decide

/-! ### Claim C5 -/

/-- C5 counterexample: the claim states the initial table length is at most
`2 ^ 20`; but the source clamps the *hint* to `2 ^ 20` before quadrupling
it, so `with_capacity(2 ^ 19)` yields a table of length `2 ^ 21 > 2 ^ 20`. -/
theorem C5_counterexample :
    capacity (new_with_size Nat Nat 524288) = 2097152 ∧
      ¬(capacity (new_with_size Nat Nat 524288) ≤ 2 ^ 20) := by
  rw [capacity_new_with_size]
  constructor
  · decide
  · decide

/-- C5 (amended): `with_capacity(hint)` creates a map whose initial table
length is the smallest power of two `≥ 4 · min(hint, 2^20)` that is also
`≥ 2^MIN_SIZE_LOG = 8` (hence at most `2^22`, not `2^20`); in particular
`capacity() == 64` after `with_capacity(10)`. -/
theorem C5_with_capacity (K V : Type) (hint : Nat) :
    IsGoodLen (capacity (new_with_size K V hint)) ∧
      4 * min hint (2 ^ 20) ≤ capacity (new_with_size K V hint) ∧
      capacity (new_with_size K V hint) ≤ 2 ^ 22 ∧
      (∀ m, MIN_SIZE_LOG ≤ m → 4 * min hint (2 ^ 20) ≤ 1 <<< m →
        capacity (new_with_size K V hint) ≤ 1 <<< m) ∧
      capacity (new_with_size K V 10) = 64 := by
  rw [capacity_new_with_size, capacity_new_with_size, clamp_eq_min,
    clamp_eq_min]
  have h4 : ∀ x : Nat, x <<< 2 = 4 * x := by
    intro x; rw [Nat.shiftLeft_eq]; ring
  refine ⟨?_, ?_, ?_, ?_, ?_⟩
  · exact IsGoodLen_shiftLeft _ (log2ge_le_self _ _)
  · rw [← h4]; exact log2ge_ge _ _
  · have : (2 : Nat) ^ 22 = 1 <<< 22 := by decide
    rw [this]
    refine shiftLeft_le_shiftLeft _ _ (log2ge_min _ _ _ (by decide) ?_)
    rw [h4]
    have : min hint (2 ^ 20) ≤ 2 ^ 20 := Nat.min_le_right _ _
    have h22 : (1 : Nat) <<< 22 = 4194304 := by decide
    omega
  · intro m hm hle
    exact shiftLeft_le_shiftLeft _ _ (log2ge_min _ _ _ hm (by rw [h4]; exact hle))
  · decide

/-- C5 witness: the amended theorem applied at `hint = 10`, `m = 6`. -/
theorem C5_witness :
    MIN_SIZE_LOG ≤ 6 ∧ 4 * min 10 (2 ^ 20) ≤ 1 <<< 6 ∧
      capacity (new_with_size Nat Nat 10) ≤ 1 <<< 6 :=
  ⟨by decide, by decide,
    (C5_with_capacity Nat Nat 10).2.2.2.1 6 (by decide) (by decide)⟩

/-! ### More list access helpers -/

theorem getD_oob {α : Type} (l : List α) (i : Nat) (d : α)
    (h : l.length ≤ i) : l.getD i d = d := by
  rw [List.getD_eq_getElem?_getD, List.getElem?_eq_none h]
  rfl

theorem tbl_append_resizer {K V : Type} (st : HMap K V) (t : KVs K V)
    (jj : Nat) (ht : t._chm._resizer = 0) :
    (tbl { st with tables := st.tables ++ [t] } jj)._chm._resizer =
      (tbl st jj)._chm._resizer := by
  rcases Nat.lt_or_ge jj st.tables.length with h | h
  · simp only [tbl]
    rw [getD_append_left _ _ _ _ h]
  · simp only [tbl]
    rw [getD_oob st.tables jj _ h, List.getD_append_right _ _ _ _ h]
    rcases Nat.lt_or_ge (jj - st.tables.length) 1 with h1 | h1
    · have : jj - st.tables.length = 0 := by omega
      rw [this]
      simpa [List.getD] using ht
    · rw [getD_oob _ _ _ (by simpa using h1)]

/-! ### Claim C3 -/

/-- C3 counterexample: a thread reaches the allocation step of `resize` (a
successor table is created and published) while the `_resizer` election
counter remains 0 everywhere — no `fetch_add(1)` claim ever happens. -/
theorem C3_counterexample :
    (resize idCtx (new Nat Nat) 0).2.tables.length = 2 ∧
      (tbl (resize idCtx (new Nat Nat) 0).2 0)._chm._resizer = 0 ∧
      (tbl (resize idCtx (new Nat Nat) 0).2 1)._chm._resizer = 0 ∧
      (resize idCtx (new Nat Nat) 0).1 = 1 := by
  refine ⟨?_, ?_, ?_, ?_⟩ <;> decide

/-- C3 (amended): `resize` performs no resizer election at all — the
`_resizer` counter is never read or written; a thread that still sees no
successor after computing the new size allocates a new (power-of-two,
`≥ 2^MIN_SIZE_LOG`) table unconditionally and publishes it with the
successor CAS (which succeeds sequentially; in the source a failed CAS is
not fatal, the loser simply adopts the published successor); a thread that
sees an existing successor returns it unchanged, without waiting. -/
theorem C3_resize_no_election {K V : Type} (c : HashCtx K) (st : HMap K V)
    (j : Nat) :
    (∀ jj, (tbl (resize c st j).2 jj)._chm._resizer =
        (tbl st jj)._chm._resizer) ∧
      (hasNewkvs st j = true → resize c st j = (j + 1, st)) ∧
      (hasNewkvs st j = false →
        MIN_SIZE_LOG ≤ log2ge MIN_SIZE_LOG (resize_newsz c st j) ∧
          resize c st j =
            (j + 1, { st with tables := st.tables ++
              [KVs.new K V (1 <<< log2ge MIN_SIZE_LOG (resize_newsz c st j))] })) := by
  by_cases h : hasNewkvs st j = true
  · refine ⟨?_, fun _ => ?_, fun hf => (by rw [hf] at h; exact absurd h (by simp))⟩
    · intro jj
      simp [resize, h]
    · simp [resize, h]
  · have h' : ¬(hasNewkvs st j = true) := h
    refine ⟨?_, fun ht => absurd ht h', fun _ => ?_⟩
    · intro jj
      simp only [resize, if_neg h']
      exact tbl_append_resizer st _ jj rfl
    · exact ⟨log2ge_le_self _ _, by simp only [resize, if_neg h']⟩

/-- C3 witness: the amended theorem applied to a fresh map (no successor):
the elected-allocator-free allocation branch fires. -/
theorem C3_witness :
    hasNewkvs (new Nat Nat) 0 = false ∧
      resize idCtx (new Nat Nat) 0 =
        (1, { new Nat Nat with
                tables := (new Nat Nat).tables ++
                  [KVs.new Nat Nat
                    (1 <<< log2ge MIN_SIZE_LOG (resize_newsz idCtx (new Nat Nat) 0))] }) :=
  ⟨by decide, ((C3_resize_no_election idCtx (new Nat Nat) 0).2.2 (by decide)).2⟩

/-! ### Claim C9 -/

/-- C9: the claim asserts the `Value` returned by `put_if_match_impl` to the
public `put` always has a non-null payload pointer.  In fact, on a key with
no prior mapping the inner call returns the freshly boxed Tomb sentinel
(`Value::new_tombstone()`), whose `_value` payload is null (`none`), and
`put_if_match_to_kvs` dereferences it (`&(*(*returnval)._value)`) — the code
contradicts the claimed safety property. -/
theorem C9_fresh_put_returns_null_payload :
    (put idCtx (new Nat Nat) 0 1).map
        (fun p => (p.1._valuetype, p.1._value, p.1._is_prime)) =
      some (.ValueTombStone, none, false) := by
  decide

/-! ### Frame lemmas for the state primitives -/

theorem tbl_setTbl_self {K V : Type} (st : HMap K V) (j : Nat) (t : KVs K V)
    (h : j < st.tables.length) : tbl (setTbl st j t) j = t := by
  simp only [tbl, setTbl]
  exact getD_set_self _ _ _ _ h

theorem tbl_setTbl_ne {K V : Type} (st : HMap K V) (j j' : Nat) (t : KVs K V)
    (h : j ≠ j') : tbl (setTbl st j t) j' = tbl st j' := by
  simp only [tbl, setTbl]
  exact getD_set_ne _ _ _ _ _ h

theorem setTbl_oob {K V : Type} (st : HMap K V) (j : Nat) (t : KVs K V)
    (h : st.tables.length ≤ j) : setTbl st j t = st := by
  simp only [setTbl]
  rw [set_of_length_le _ _ _ h]

theorem root_setTbl {K V : Type} (st : HMap K V) (j : Nat) (t : KVs K V) :
    (setTbl st j t).root = st.root := rfl

theorem length_setTbl {K V : Type} (st : HMap K V) (j : Nat) (t : KVs K V) :
    (setTbl st j t).tables.length = st.tables.length := by
  simp [setTbl]

theorem hasNewkvs_setTbl {K V : Type} (st : HMap K V) (j j' : Nat)
    (t : KVs K V) : hasNewkvs (setTbl st j t) j' = hasNewkvs st j' := by
  simp [hasNewkvs, length_setTbl]

theorem getKey_setVal {K V : Type} (st : HMap K V) (j idx j' idx' : Nat)
    (w : Value V) : getKey (setVal st j idx w) j' idx' = getKey st j' idx' := by
  rcases Nat.lt_or_ge j st.tables.length with hj | hj
  · by_cases e : j = j'
    · subst e
      simp [getKey, setVal, tbl_setTbl_self _ _ _ hj]
    · simp [getKey, setVal, tbl_setTbl_ne _ _ _ _ e]
  · rw [setVal, setTbl_oob _ _ _ hj]

theorem getKey_setHash {K V : Type} (st : HMap K V) (j idx j' idx' h : Nat) :
    getKey (setHash st j idx h) j' idx' = getKey st j' idx' := by
  rcases Nat.lt_or_ge j st.tables.length with hj | hj
  · by_cases e : j = j'
    · subst e
      simp [getKey, setHash, tbl_setTbl_self _ _ _ hj]
    · simp [getKey, setHash, tbl_setTbl_ne _ _ _ _ e]
  · rw [setHash, setTbl_oob _ _ _ hj]

theorem getKey_updCHM {K V : Type} (st : HMap K V) (j j' idx' : Nat)
    (f : CHM → CHM) : getKey (updCHM st j f) j' idx' = getKey st j' idx' := by
  rcases Nat.lt_or_ge j st.tables.length with hj | hj
  · by_cases e : j = j'
    · subst e
      simp [getKey, updCHM, tbl_setTbl_self _ _ _ hj]
    · simp [getKey, updCHM, tbl_setTbl_ne _ _ _ _ e]
  · rw [updCHM, setTbl_oob _ _ _ hj]

theorem getVal_setKey {K V : Type} (st : HMap K V) (j idx j' idx' : Nat)
    (a : Key K) : getVal (setKey st j idx a) j' idx' = getVal st j' idx' := by
  rcases Nat.lt_or_ge j st.tables.length with hj | hj
  · by_cases e : j = j'
    · subst e
      simp [getVal, setKey, tbl_setTbl_self _ _ _ hj]
    · simp [getVal, setKey, tbl_setTbl_ne _ _ _ _ e]
  · rw [setKey, setTbl_oob _ _ _ hj]

theorem getVal_setHash {K V : Type} (st : HMap K V) (j idx j' idx' h : Nat) :
    getVal (setHash st j idx h) j' idx' = getVal st j' idx' := by
  rcases Nat.lt_or_ge j st.tables.length with hj | hj
  · by_cases e : j = j'
    · subst e
      simp [getVal, setHash, tbl_setTbl_self _ _ _ hj]
    · simp [getVal, setHash, tbl_setTbl_ne _ _ _ _ e]
  · rw [setHash, setTbl_oob _ _ _ hj]

theorem getVal_updCHM {K V : Type} (st : HMap K V) (j j' idx' : Nat)
    (f : CHM → CHM) : getVal (updCHM st j f) j' idx' = getVal st j' idx' := by
  rcases Nat.lt_or_ge j st.tables.length with hj | hj
  · by_cases e : j = j'
    · subst e
      simp [getVal, updCHM, tbl_setTbl_self _ _ _ hj]
    · simp [getVal, updCHM, tbl_setTbl_ne _ _ _ _ e]
  · rw [updCHM, setTbl_oob _ _ _ hj]

theorem getKey_setKey_self {K V : Type} (st : HMap K V) (j idx : Nat)
    (a : Key K) (hj : j < st.tables.length)
    (hi : idx < (tbl st j)._ks.length) :
    getKey (setKey st j idx a) j idx = a := by
  simp only [getKey, setKey, tbl_setTbl_self _ _ _ hj]
  exact getD_set_self _ _ _ _ hi

theorem getVal_setVal_self {K V : Type} (st : HMap K V) (j idx : Nat)
    (w : Value V) (hj : j < st.tables.length)
    (hi : idx < (tbl st j)._vs.length) :
    getVal (setVal st j idx w) j idx = w := by
  simp only [getVal, setVal, tbl_setTbl_self _ _ _ hj]
  exact getD_set_self _ _ _ _ hi

theorem len_setKey {K V : Type} (st : HMap K V) (j idx j' : Nat) (a : Key K) :
    (tbl (setKey st j idx a) j').len = (tbl st j').len := by
  rcases Nat.lt_or_ge j st.tables.length with hj | hj
  · by_cases e : j = j'
    · subst e
      simp [KVs.len, setKey, tbl_setTbl_self _ _ _ hj]
    · simp [setKey, tbl_setTbl_ne _ _ _ _ e]
  · rw [setKey, setTbl_oob _ _ _ hj]

theorem len_setVal {K V : Type} (st : HMap K V) (j idx j' : Nat)
    (w : Value V) : (tbl (setVal st j idx w) j').len = (tbl st j').len := by
  rcases Nat.lt_or_ge j st.tables.length with hj | hj
  · by_cases e : j = j'
    · subst e
      simp [KVs.len, setVal, tbl_setTbl_self _ _ _ hj]
    · simp [setVal, tbl_setTbl_ne _ _ _ _ e]
  · rw [setVal, setTbl_oob _ _ _ hj]

theorem len_setHash {K V : Type} (st : HMap K V) (j idx j' h : Nat) :
    (tbl (setHash st j idx h) j').len = (tbl st j').len := by
  rcases Nat.lt_or_ge j st.tables.length with hj | hj
  · by_cases e : j = j'
    · subst e
      simp [KVs.len, setHash, tbl_setTbl_self _ _ _ hj]
    · simp [setHash, tbl_setTbl_ne _ _ _ _ e]
  · rw [setHash, setTbl_oob _ _ _ hj]

theorem len_updCHM {K V : Type} (st : HMap K V) (j j' : Nat) (f : CHM → CHM) :
    (tbl (updCHM st j f) j').len = (tbl st j').len := by
  rcases Nat.lt_or_ge j st.tables.length with hj | hj
  · by_cases e : j = j'
    · subst e
      simp [KVs.len, updCHM, tbl_setTbl_self _ _ _ hj]
    · simp [updCHM, tbl_setTbl_ne _ _ _ _ e]
  · rw [updCHM, setTbl_oob _ _ _ hj]

/-! ### Claim C8 -/

/-- C8: for a table with a successor, `copy_slot` on a slot whose key is
Absent CASes the key cell to `KeyTomb` and returns `true` without touching
anything else (in particular not the value cell); on a slot whose key is
already `KeyTomb` it returns `false` and changes nothing. -/
theorem C8_copy_slot_empty_slots {K V : Type} [DecidableEq K] [DecidableEq V]
    (c : HashCtx K) (fuel : Nat) (st : HMap K V) (j idx : Nat)
    (_hnew : hasNewkvs st j = true) :
    ((getKey st j idx).is_empty = true →
      copy_slot c (fuel + 1) st j idx =
          some (true, setKey st j idx Key.new_tombstone) ∧
        ∀ i, getVal (setKey st j idx Key.new_tombstone) j i = getVal st j i) ∧
      ((getKey st j idx).is_tombstone = true →
        copy_slot c (fuel + 1) st j idx = some (false, st)) := by
  constructor
  · intro he
    constructor
    · simp only [copy_slot, he, if_true]
    · intro i
      exact getVal_setKey st j idx j i Key.new_tombstone
  · intro ht
    have he : (getKey st j idx).is_empty = false := by
      simp only [Key.is_empty, decide_eq_false_iff_not]
      simp only [Key.is_tombstone, decide_eq_true_eq] at ht
      rw [ht]
      intro hc
      exact KeyTypes.noConfusion hc
    simp only [copy_slot, he, ht]
    rfl

/-- C8 witness: `copy_slot` on slot 3 of the mid-resize map (empty key). -/
theorem C8_witness :
    hasNewkvs midCopySt 0 = true ∧ (getKey midCopySt 0 3).is_empty = true ∧
      copy_slot idCtx 5 midCopySt 0 3 =
        some (true, setKey midCopySt 0 3 Key.new_tombstone) :=
  ⟨by decide, by decide,
    (((C8_copy_slot_empty_slots idCtx 4 midCopySt 0 3 (by decide)).1
      (by decide)).1)⟩

/-! ### Claim C2 -/

/-- C2 counterexample: `reprobe_limit()` on a length-64 table is
`10 + (64 << 2) = 266`, not the claimed `10 + (64 >> 2) = 26`; and `get` does
not use it anyway: on a table holding key 64 (home index 0) at probe
distance 10 — within the claimed budget of 26 — with a present value, the
lookup gives up after `REPROBE_LIMIT = 10` probes and returns `None` (there
is no successor), leaving the key unreturned. -/
theorem C2_counterexample :
    (KVs.new Nat Nat 64).reprobe_limit = 266 ∧
      (KVs.new Nat Nat 64).reprobe_limit ≠ REPROBE_LIMIT + (64 >>> 2) ∧
      getKey c2st 0 10 = Key.new 64 ∧
      getVal c2st 0 10 = Value.new 7 ∧
      10 < REPROBE_LIMIT + ((tbl c2st 0).len >>> 2) ∧
      hasNewkvs c2st 0 = false ∧
      (get idCtx c2st 64).map (fun p => p.1) = some none := by
  refine ⟨by decide, by decide, by decide, by decide, by decide, by decide,
    by decide⟩

/-- Probe-count bound of `get`'s inner loop: when table `j` has no successor
and no primed values, the loop terminates within `REPROBE_LIMIT` probes
(formally: any fuel exceeding `REPROBE_LIMIT - reprobe_cnt` suffices),
returns (a hit or `None`) and leaves the state unchanged. -/
theorem getLoop_no_successor_bound {K V : Type} [DecidableEq K]
    [DecidableEq V] (c : HashCtx K) :
    ∀ (fuel : Nat) (st : HMap K V) (j : Nat) (key : Key K)
      (fullhash len idx cnt : Nat),
      hasNewkvs st j = false →
      (∀ i < (tbl st j)._vs.length, (getVal st j i).is_prime = false) →
      REPROBE_LIMIT - cnt < fuel →
      ∃ r, getLoop c fuel st j key fullhash len idx cnt = some (r, st) := by
  intro fuel
  induction fuel with
  | zero => intro _ _ _ _ _ _ cnt _ _ hf; omega
  | succ f ih =>
    intro st j key fullhash len idx cnt hnew hnp hf
    simp only [getLoop]
    by_cases hke : (getKey st j idx).is_empty = true
    · rw [if_pos hke]
      exact ⟨none, rfl⟩
    · rw [if_neg hke]
      by_cases hkm : (getKey st j idx).peq key = true
      · rw [if_pos hkm]
        have hpr : (getVal st j idx).is_prime = false := by
          rcases Nat.lt_or_ge idx (tbl st j)._vs.length with hi | hi
          · exact hnp idx hi
          · simp only [getVal]
            rw [getD_oob _ _ _ hi]
            rfl
        by_cases hts : (getVal st j idx).is_tombstone = true
        · refine ⟨none, ?_⟩
          simp [hpr, hts]
        · refine ⟨some (getVal st j idx), ?_⟩
          simp [hpr, hts]
      · rw [if_neg hkm]
        by_cases hterm :
            (cnt + 1 ≥ REPROBE_LIMIT || (getKey st j idx).is_tombstone) = true
        · rw [if_pos hterm, hnew]
          simp only [Bool.false_eq_true, if_false]
          exact ⟨none, rfl⟩
        · rw [if_neg hterm]
          have hcnt : ¬(cnt + 1 ≥ REPROBE_LIMIT) := by
            intro hc
            apply hterm
            simp [hc]
          exact ih st j key fullhash len ((idx + 1) &&& (len - 1)) (cnt + 1)
            hnew hnp (by omega)

/-- C2 (amended): `reprobe_limit()` computes `REPROBE_LIMIT + (len << 2)`
(left shift, not `len >> 2`), and lookups do not consult it: `get` bounds
linear probing within one table by the bare constant `REPROBE_LIMIT = 10`;
on reaching that bound (or a tombstoned key slot) the lookup returns `None`
when the table has no successor, and otherwise helps copy and restarts in
the successor. -/
theorem C2_get_probe_bound {K V : Type} [DecidableEq K] [DecidableEq V]
    (c : HashCtx K) (fuel : Nat) (st : HMap K V) (j : Nat) (key : Key K)
    (fullhash len idx cnt : Nat) :
    ((tbl st j).reprobe_limit = REPROBE_LIMIT + ((tbl st j).len <<< 2)) ∧
      (hasNewkvs st j = false →
        (∀ i < (tbl st j)._vs.length, (getVal st j i).is_prime = false) →
        REPROBE_LIMIT - cnt < fuel →
        ∃ r, getLoop c fuel st j key fullhash len idx cnt = some (r, st)) ∧
      ((getKey st j idx).is_empty = false → (getKey st j idx).peq key = false →
        REPROBE_LIMIT ≤ cnt + 1 → hasNewkvs st j = true →
        getLoop c (fuel + 1) st j key fullhash len idx cnt =
          (match help_copy c fuel st with
            | none => none
            | some st' => get_impl_supply_hash c fuel st' (j + 1) key fullhash)) := by
  refine ⟨rfl, ?_, ?_⟩
  · intro hnew hnp hf
    exact getLoop_no_successor_bound c fuel st j key fullhash len idx cnt hnew
      hnp hf
  · intro hke hkm hcnt hnew
    simp only [getLoop]
    rw [hke, hkm]
    simp only [Bool.false_eq_true, if_false]
    have : (cnt + 1 ≥ REPROBE_LIMIT || (getKey st j idx).is_tombstone) = true := by
      simp [hcnt]
    rw [if_pos this, hnew]
    simp

/-- CHM frame lemma: storing a value cell leaves every control block
unchanged. -/
theorem chm_setVal {K V : Type} (st : HMap K V) (j idx j' : Nat)
    (w : Value V) : (tbl (setVal st j idx w) j')._chm = (tbl st j')._chm := by
  rcases Nat.lt_or_ge j st.tables.length with hj | hj
  · by_cases e : j = j'
    · subst e
      simp [setVal, tbl_setTbl_self _ _ _ hj]
    · simp [setVal, tbl_setTbl_ne _ _ _ _ e]
  · rw [setVal, setTbl_oob _ _ _ hj]

/-- CHM frame lemma: `updCHM` applies `f` to the control block of table `j`
(when `j` is in range). -/
theorem chm_updCHM_self {K V : Type} (st : HMap K V) (j : Nat) (f : CHM → CHM)
    (hj : j < st.tables.length) :
    (tbl (updCHM st j f) j)._chm = f (tbl st j)._chm := by
  simp [updCHM, tbl_setTbl_self _ _ _ hj]

/-- `_vs`/`_ks`/root/hasNewkvs frame lemmas for the primitives. -/
theorem vs_setKey {K V : Type} (st : HMap K V) (j i j' : Nat) (a : Key K) :
    (tbl (setKey st j i a) j')._vs = (tbl st j')._vs := by
  rcases Nat.lt_or_ge j st.tables.length with hj | hj
  · by_cases e : j = j'
    · subst e; simp [setKey, tbl_setTbl_self _ _ _ hj]
    · simp [setKey, tbl_setTbl_ne _ _ _ _ e]
  · rw [setKey, setTbl_oob _ _ _ hj]

theorem vs_setHash {K V : Type} (st : HMap K V) (j i h j' : Nat) :
    (tbl (setHash st j i h) j')._vs = (tbl st j')._vs := by
  rcases Nat.lt_or_ge j st.tables.length with hj | hj
  · by_cases e : j = j'
    · subst e; simp [setHash, tbl_setTbl_self _ _ _ hj]
    · simp [setHash, tbl_setTbl_ne _ _ _ _ e]
  · rw [setHash, setTbl_oob _ _ _ hj]

theorem vs_updCHM {K V : Type} (st : HMap K V) (j j' : Nat) (f : CHM → CHM) :
    (tbl (updCHM st j f) j')._vs = (tbl st j')._vs := by
  rcases Nat.lt_or_ge j st.tables.length with hj | hj
  · by_cases e : j = j'
    · subst e; simp [updCHM, tbl_setTbl_self _ _ _ hj]
    · simp [updCHM, tbl_setTbl_ne _ _ _ _ e]
  · rw [updCHM, setTbl_oob _ _ _ hj]

theorem root_setKey {K V : Type} (st : HMap K V) (j i : Nat) (a : Key K) :
    (setKey st j i a).root = st.root := rfl

theorem root_setVal {K V : Type} (st : HMap K V) (j i : Nat) (w : Value V) :
    (setVal st j i w).root = st.root := rfl

theorem root_setHash {K V : Type} (st : HMap K V) (j i h : Nat) :
    (setHash st j i h).root = st.root := rfl

theorem root_updCHM {K V : Type} (st : HMap K V) (j : Nat) (f : CHM → CHM) :
    (updCHM st j f).root = st.root := rfl

theorem hasNewkvs_setKey {K V : Type} (st : HMap K V) (j i j' : Nat)
    (a : Key K) : hasNewkvs (setKey st j i a) j' = hasNewkvs st j' :=
  hasNewkvs_setTbl _ _ _ _

theorem hasNewkvs_setVal {K V : Type} (st : HMap K V) (j i j' : Nat)
    (w : Value V) : hasNewkvs (setVal st j i w) j' = hasNewkvs st j' :=
  hasNewkvs_setTbl _ _ _ _

theorem hasNewkvs_setHash {K V : Type} (st : HMap K V) (j i h j' : Nat) :
    hasNewkvs (setHash st j i h) j' = hasNewkvs st j' :=
  hasNewkvs_setTbl _ _ _ _

theorem hasNewkvs_updCHM {K V : Type} (st : HMap K V) (j j' : Nat)
    (f : CHM → CHM) : hasNewkvs (updCHM st j f) j' = hasNewkvs st j' :=
  hasNewkvs_setTbl _ _ _ _

theorem length_setKey {K V : Type} (st : HMap K V) (j i : Nat) (a : Key K) :
    (setKey st j i a).tables.length = st.tables.length :=
  length_setTbl _ _ _

theorem length_setVal {K V : Type} (st : HMap K V) (j i : Nat) (w : Value V) :
    (setVal st j i w).tables.length = st.tables.length :=
  length_setTbl _ _ _

theorem length_setHash {K V : Type} (st : HMap K V) (j i h : Nat) :
    (setHash st j i h).tables.length = st.tables.length :=
  length_setTbl _ _ _

theorem length_updCHM {K V : Type} (st : HMap K V) (j : Nat) (f : CHM → CHM) :
    (updCHM st j f).tables.length = st.tables.length :=
  length_setTbl _ _ _

/-! ### Claim C4 -/

/-- C4 counterexample: the very call `copy_slot` makes (`MatchValue` with the
Empty expected sentinel) on a slot whose prior value is Absent: the CAS
succeeds and installs the Present value, yet `live_size` is NOT incremented
(it stays 0) and the call returns the prior Absent value, NOT the Tomb
sentinel — both contrary to the claim's "including the copy path". -/
theorem C4_counterexample :
    getVal (new Nat Nat) 0 3 = Value.new_empty ∧
      (put_if_match_impl idCtx FUEL (new Nat Nat) 0 (Key.new 3) (Value.new 7)
            .MatchValue (some Value.new_empty)).map
          (fun p => (p.1, (tbl p.2 0)._chm._size, getVal p.2 0 3)) =
        some (Value.new_empty, 0, Value.new 7) ∧
      (Value.new_empty : Value Nat) ≠ Value.new_tombstone := by
  refine ⟨by decide, by decide, by decide⟩

/-- C4 (amended): for a successful value CAS inside `put_if_match` with
`expval_not_empty` (every path except the internal copy path): a
`{Absent|Tomb} → Present` transition increments `live_size`, a
`Present → Tomb` transition decrements it, and the call returns the Tomb
sentinel exactly when the prior value was Absent, otherwise the prior value.
On the copy path (`MatchValue` with the Empty expected sentinel, so
`expval_not_empty` is false) the counters are untouched and the prior value
is returned unchanged.  The first conjunct ties the bookkeeping block
(`put_cas_success`) to the write phase of `put_if_match` itself. -/
theorem C4_put_cas_size_and_return {K V : Type} [DecidableEq K]
    [DecidableEq V] (c : HashCtx K) (fuel : Nat) (st : HMap K V)
    (j idx rc : Nat) (key : Key K) (putval v : Value V)
    (hj : j < st.tables.length) :
    (hasNewkvs st j = false → putval.peq (getVal st j idx) = false →
      putWrite c (fuel + 1) st j key putval .MatchAll none true idx rc =
        some (put_cas_success st j idx (getVal st j idx) putval true)) ∧
      ((v.is_empty || v.is_tombstone) = true → putval.is_tombstone = false →
        (tbl (put_cas_success st j idx v putval true).2 j)._chm._size =
          (tbl st j)._chm._size + 1) ∧
      ((v.is_empty || v.is_tombstone) = false → putval.is_tombstone = true →
        (tbl (put_cas_success st j idx v putval true).2 j)._chm._size =
          (tbl st j)._chm._size - 1) ∧
      ((put_cas_success st j idx v putval true).1 =
        if v.is_empty then Value.new_tombstone else v) ∧
      ((tbl (put_cas_success st j idx v putval false).2 j)._chm._size =
          (tbl st j)._chm._size ∧
        (put_cas_success st j idx v putval false).1 = v) := by
  have hlen : j < (setVal st j idx putval).tables.length := by
    simpa [setVal, length_setTbl] using hj
  refine ⟨?_, ?_, ?_, ?_, ?_, ?_⟩
  · intro hn hne
    simp [putWrite, hne, hn]
  · intro hv hpt
    simp [put_cas_success, hv, hpt]
    rw [chm_updCHM_self _ _ _ hlen, chm_setVal]
  · intro hv hpt
    simp [put_cas_success, hv, hpt]
    rw [chm_updCHM_self _ _ _ hlen, chm_setVal]
  · simp only [put_cas_success, Bool.and_true]
  · simp [put_cas_success]
    rw [chm_setVal]
  · simp [put_cas_success]

/-- C4 witness: the amended theorem at a fresh map, slot 5, with
`putval = Value.new 9` over an Absent prior. -/
theorem C4_witness :
    hasNewkvs (new Nat Nat) 0 = false ∧
      (Value.new 9).peq (getVal (new Nat Nat) 0 5) = false ∧
      putWrite idCtx 3 (new Nat Nat) 0 (Key.new 5) (Value.new 9) .MatchAll
          none true 5 0 =
        some (put_cas_success (new Nat Nat) 0 5 (getVal (new Nat Nat) 0 5)
          (Value.new 9) true) :=
  ⟨by decide, by decide,
    (C4_put_cas_size_and_return idCtx 2 (new Nat Nat) 0 5 0 (Key.new 5)
        (Value.new 9) Value.new_empty (by decide)).1 (by decide) (by decide)⟩

/-! ### Symbolic single-put / single-get lemmas (towards C1) -/

theorem peq_new_empty {V : Type} [DecidableEq V] (v : V) :
    (Value.new v).peq Value.new_empty = false := rfl

theorem new_is_tombstone {V : Type} (v : V) :
    (Value.new v).is_tombstone = false := rfl

/-- A `put` (`MatchAll`, no expected value) into a table with no successor
whose home slot is entirely fresh: the key CAS claims the slot, `_slots` is
bumped, the hash cached, the value CAS installs the value, `_size` is
bumped, and the Tomb sentinel is returned. -/
theorem put_fresh_slot {K V : Type} [DecidableEq K] [DecidableEq V]
    (c : HashCtx K) (fuel : Nat) (st : HMap K V) (j : Nat) (k : K) (v : V)
    (hke : (getKey st j (c.hashF k &&& ((tbl st j).len - 1))).is_empty = true)
    (hve : getVal st j (c.hashF k &&& ((tbl st j).len - 1)) = Value.new_empty)
    (hnew : hasNewkvs st j = false) :
    put_if_match_impl c (fuel + 3) st j (Key.new k) (Value.new v) .MatchAll
        none =
      some (Value.new_tombstone,
        updCHM
          (setVal
            (setHash
              (updCHM (setKey st j (c.hashF k &&& ((tbl st j).len - 1))
                  (Key.new k)) j
                (fun chm => { chm with _slots := chm._slots + 1 }))
              j (c.hashF k &&& ((tbl st j).len - 1)) (c.hashF k))
            j (c.hashF k &&& ((tbl st j).len - 1)) (Value.new v))
          j (fun chm => { chm with _size := chm._size + 1 })) := by
  have hkh : keyHash c (Key.new k) = c.hashF k := rfl
  simp only [put_if_match_impl, hkh]
  simp only [putProbe, hke, if_true, expvalNotEmpty]
  rw [if_neg (by rw [new_is_tombstone]; exact Bool.false_ne_true)]
  simp only [putWrite]
  simp only [getVal_setHash, getVal_updCHM, getVal_setKey, hve,
    hasNewkvs_setHash, hasNewkvs_updCHM, hasNewkvs_setKey, hnew,
    peq_new_empty, Bool.false_eq_true, if_false, Bool.false_and]
  simp [put_cas_success, Value.is_empty, Value.is_tombstone, Value.new,
    Value.new_empty, Value.new_tombstone]

/-- A `put` (`MatchAll`, no expected value) into a table with no successor
whose home slot already holds a matching key: idempotent no-op when the new
value equals the stored one, otherwise the value CAS overwrites it via
`put_cas_success`. -/
theorem put_existing_slot {K V : Type} [DecidableEq K] [DecidableEq V]
    (c : HashCtx K) (fuel : Nat) (st : HMap K V) (j : Nat) (k : K) (v : V)
    (hke : (getKey st j (c.hashF k &&& ((tbl st j).len - 1))).is_empty = false)
    (hkm : (getKey st j (c.hashF k &&& ((tbl st j).len - 1))).peq (Key.new k) =
      true)
    (hnew : hasNewkvs st j = false) :
    put_if_match_impl c (fuel + 3) st j (Key.new k) (Value.new v) .MatchAll
        none =
      if (Value.new v).peq (getVal st j (c.hashF k &&& ((tbl st j).len - 1)))
          = true then
        some (getVal st j (c.hashF k &&& ((tbl st j).len - 1)), st)
      else
        some (put_cas_success st j (c.hashF k &&& ((tbl st j).len - 1))
          (getVal st j (c.hashF k &&& ((tbl st j).len - 1))) (Value.new v)
          true) := by
  have hkh : keyHash c (Key.new k) = c.hashF k := rfl
  simp only [put_if_match_impl, hkh]
  simp only [putProbe, hke, Bool.false_eq_true, if_false, hkm, if_true,
    expvalNotEmpty]
  simp only [putWrite, hnew, Bool.false_and, Bool.false_eq_true, if_false]
  split
  case isTrue h => rfl
  case isFalse h => simp

/-- `get`'s inner loop at a slot holding a matching key with an unprimed
non-tombstone value: the value is returned and the state untouched. -/
theorem getLoop_found {K V : Type} [DecidableEq K] [DecidableEq V]
    (c : HashCtx K) (fuel : Nat) (st : HMap K V) (j : Nat) (key : Key K)
    (fullhash len idx cnt : Nat)
    (hke : (getKey st j idx).is_empty = false)
    (hkm : (getKey st j idx).peq key = true)
    (hpr : (getVal st j idx).is_prime = false)
    (hts : (getVal st j idx).is_tombstone = false) :
    getLoop c (fuel + 1) st j key fullhash len idx cnt =
      some (some (getVal st j idx), st) := by
  simp only [getLoop, hke, Bool.false_eq_true, if_false, hkm, if_true, hpr,
    hts, Bool.not_false]

/-- Public `get` of a key whose home slot holds a matching key with an
unprimed non-tombstone value: the payload is returned, state untouched. -/
theorem get_found {K V : Type} [DecidableEq K] [DecidableEq V]
    (c : HashCtx K) (st : HMap K V) (k : K)
    (hke : (getKey st st.root
      (c.hashF k &&& ((tbl st st.root).len - 1))).is_empty = false)
    (hkm : (getKey st st.root
      (c.hashF k &&& ((tbl st st.root).len - 1))).peq (Key.new k) = true)
    (hpr : (getVal st st.root
      (c.hashF k &&& ((tbl st st.root).len - 1))).is_prime = false)
    (hts : (getVal st st.root
      (c.hashF k &&& ((tbl st st.root).len - 1))).is_tombstone = false) :
    get c st k =
      some ((getVal st st.root
        (c.hashF k &&& ((tbl st st.root).len - 1)))._value, st) := by
  have hkh : keyHash c (Key.new k) = c.hashF k := rfl
  rw [get, hkh, show FUEL = (FUEL - 2) + 2 from rfl]
  simp only [get_impl_supply_hash]
  rw [getLoop_found c (FUEL - 2) st st.root (Key.new k) (c.hashF k) _ _ 0 hke
    hkm hpr hts]
  rfl

theorem new_eq_32 (K V : Type) : new K V = ⟨[KVs.new K V 32], 0⟩ := by
  have harith : (1 : Nat) <<< log2ge MIN_SIZE_LOG (MIN_SIZE <<< 2) = 32 := by
    decide
  have hclamp : (if 1024 * 1024 < MIN_SIZE then 1024 * 1024 else MIN_SIZE) =
      MIN_SIZE := by decide
  simp [new, new_with_size, hclamp, harith]

theorem tbl_single (K V : Type) (t : KVs K V) (r : Nat) :
    tbl (⟨[t], r⟩ : HMap K V) 0 = t := rfl

theorem peq_new_new {K : Type} [DecidableEq K] (k : K) :
    (Key.new k).peq (Key.new k) = true := by
  simp [Key.peq, Key.new]

/-- Law `put(k, v); get(k) == Some(v)` on a fresh map. -/
theorem put_get_law1 {K V : Type} [DecidableEq K] [DecidableEq V]
    (c : HashCtx K) (k : K) (v : V) :
    (put c (new K V) k v).bind (fun p => (get c p.2 k).map (fun q => q.1)) =
      some (some v) := by
  have hidx : c.hashF k &&& 31 < 32 :=
    lt_of_le_of_lt Nat.and_le_right (by norm_num)
  rw [put, new_eq_32]
  have hlen : (tbl (⟨[KVs.new K V 32], 0⟩ : HMap K V) 0).len = 32 := by
    rw [tbl_single, len_KVs_new]
  have hkeyE : ∀ i, getKey (⟨[KVs.new K V 32], 0⟩ : HMap K V) 0 i =
      Key.new_empty := by
    intro i
    rw [getKey, tbl_single]
    exact getD_replicate _ _ _
  have hvalE : ∀ i, getVal (⟨[KVs.new K V 32], 0⟩ : HMap K V) 0 i =
      Value.new_empty := by
    intro i
    rw [getVal, tbl_single]
    exact getD_replicate _ _ _
  have hnw : hasNewkvs (⟨[KVs.new K V 32], 0⟩ : HMap K V) 0 = false := by
    simp [hasNewkvs]
  have hput := put_fresh_slot c (FUEL - 3) (⟨[KVs.new K V 32], 0⟩ : HMap K V)
    0 k v (by rw [hkeyE]; rfl) (hvalE _) hnw
  rw [show (⟨[KVs.new K V 32], 0⟩ : HMap K V).root = 0 from rfl,
    show FUEL = (FUEL - 3) + 3 from rfl, hput]
  rw [hlen] at hput ⊢
  rw [show (32 : Nat) - 1 = 31 from rfl]
  rw [Option.some_bind]
  -- the state after the put
  have hrootS : (updCHM
      (setVal
        (setHash
          (updCHM (setKey (⟨[KVs.new K V 32], 0⟩ : HMap K V) 0
              (c.hashF k &&& 31) (Key.new k)) 0
            (fun chm => { chm with _slots := chm._slots + 1 }))
          0 (c.hashF k &&& 31) (c.hashF k))
        0 (c.hashF k &&& 31) (Value.new v))
      0 (fun chm => { chm with _size := chm._size + 1 })).root = 0 := rfl
  have hlenS : (tbl (updCHM
      (setVal
        (setHash
          (updCHM (setKey (⟨[KVs.new K V 32], 0⟩ : HMap K V) 0
              (c.hashF k &&& 31) (Key.new k)) 0
            (fun chm => { chm with _slots := chm._slots + 1 }))
          0 (c.hashF k &&& 31) (c.hashF k))
        0 (c.hashF k &&& 31) (Value.new v))
      0 (fun chm => { chm with _size := chm._size + 1 })) 0).len = 32 := by
    rw [len_updCHM, len_setVal, len_setHash, len_updCHM, len_setKey, hlen]
  have hkS : getKey (updCHM
      (setVal
        (setHash
          (updCHM (setKey (⟨[KVs.new K V 32], 0⟩ : HMap K V) 0
              (c.hashF k &&& 31) (Key.new k)) 0
            (fun chm => { chm with _slots := chm._slots + 1 }))
          0 (c.hashF k &&& 31) (c.hashF k))
        0 (c.hashF k &&& 31) (Value.new v))
      0 (fun chm => { chm with _size := chm._size + 1 })) 0
      (c.hashF k &&& 31) = Key.new k := by
    rw [getKey_updCHM, getKey_setVal, getKey_setHash, getKey_updCHM]
    exact getKey_setKey_self _ 0 _ (Key.new k) (by norm_num)
      (by rw [tbl_single]; simpa [KVs.new] using hidx)
  have hvS : getVal (updCHM
      (setVal
        (setHash
          (updCHM (setKey (⟨[KVs.new K V 32], 0⟩ : HMap K V) 0
              (c.hashF k &&& 31) (Key.new k)) 0
            (fun chm => { chm with _slots := chm._slots + 1 }))
          0 (c.hashF k &&& 31) (c.hashF k))
        0 (c.hashF k &&& 31) (Value.new v))
      0 (fun chm => { chm with _size := chm._size + 1 })) 0
      (c.hashF k &&& 31) = Value.new v := by
    rw [getVal_updCHM]
    apply getVal_setVal_self
    · rw [length_setHash, length_updCHM, length_setKey]
      norm_num
    · rw [vs_setHash, vs_updCHM, vs_setKey, tbl_single]
      simpa [KVs.new] using hidx
  have h31 : (32 : Nat) - 1 = 31 := rfl
  rw [get_found c _ k (by rw [hrootS, hlenS, h31, hkS]; rfl)
      (by rw [hrootS, hlenS, h31, hkS]; exact peq_new_new k)
      (by rw [hrootS, hlenS, h31, hvS]; rfl)
      (by rw [hrootS, hlenS, h31, hvS]; rfl)]
  rw [hrootS, hlenS, h31, hvS]
  rfl

theorem vsLen_setVal {K V : Type} (st : HMap K V) (j i j' : Nat)
    (w : Value V) :
    (tbl (setVal st j i w) j')._vs.length = (tbl st j')._vs.length := by
  rcases Nat.lt_or_ge j st.tables.length with hj | hj
  · by_cases e : j = j'
    · subst e; simp [setVal, tbl_setTbl_self _ _ _ hj]
    · simp [setVal, tbl_setTbl_ne _ _ _ _ e]
  · rw [setVal, setTbl_oob _ _ _ hj]

theorem peq_new_new_val {V : Type} [DecidableEq V] (a b : V) :
    (Value.new a).peq (Value.new b) = true ↔ a = b := by
  simp [Value.peq, Value.new]

/-- Law `put(k, v1); put(k, v2); get(k) == Some(v2)` on a fresh map. -/
theorem put_get_law2 {K V : Type} [DecidableEq K] [DecidableEq V]
    (c : HashCtx K) (k : K) (v1 v2 : V) :
    ((put c (new K V) k v1).bind (fun p => put c p.2 k v2)).bind
      (fun p => (get c p.2 k).map (fun q => q.1)) = some (some v2) := by
  have hidx : c.hashF k &&& 31 < 32 :=
    lt_of_le_of_lt Nat.and_le_right (by norm_num)
  have h31 : (32 : Nat) - 1 = 31 := rfl
  rw [put, new_eq_32]
  have hlen : (tbl (⟨[KVs.new K V 32], 0⟩ : HMap K V) 0).len = 32 := by
    rw [tbl_single, len_KVs_new]
  have hkeyE : ∀ i, getKey (⟨[KVs.new K V 32], 0⟩ : HMap K V) 0 i =
      Key.new_empty := by
    intro i
    rw [getKey, tbl_single]
    exact getD_replicate _ _ _
  have hvalE : ∀ i, getVal (⟨[KVs.new K V 32], 0⟩ : HMap K V) 0 i =
      Value.new_empty := by
    intro i
    rw [getVal, tbl_single]
    exact getD_replicate _ _ _
  have hnw : hasNewkvs (⟨[KVs.new K V 32], 0⟩ : HMap K V) 0 = false := by
    simp [hasNewkvs]
  have hput := put_fresh_slot c (FUEL - 3) (⟨[KVs.new K V 32], 0⟩ : HMap K V)
    0 k v1 (by rw [hkeyE]; rfl) (hvalE _) hnw
  rw [hlen, h31] at hput
  rw [show (⟨[KVs.new K V 32], 0⟩ : HMap K V).root = 0 from rfl,
    show FUEL = (FUEL - 3) + 3 from rfl, hput, Option.some_bind]
  set S1 : HMap K V := updCHM
      (setVal
        (setHash
          (updCHM (setKey (⟨[KVs.new K V 32], 0⟩ : HMap K V) 0
              (c.hashF k &&& 31) (Key.new k)) 0
            (fun chm => { chm with _slots := chm._slots + 1 }))
          0 (c.hashF k &&& 31) (c.hashF k))
        0 (c.hashF k &&& 31) (Value.new v1))
      0 (fun chm => { chm with _size := chm._size + 1 }) with hS1def
  have hrootS : S1.root = 0 := by rw [hS1def]; rfl
  have hlenS : (tbl S1 0).len = 32 := by
    rw [hS1def, len_updCHM, len_setVal, len_setHash, len_updCHM, len_setKey,
      hlen]
  have hkS : getKey S1 0 (c.hashF k &&& 31) = Key.new k := by
    rw [hS1def, getKey_updCHM, getKey_setVal, getKey_setHash, getKey_updCHM]
    exact getKey_setKey_self _ 0 _ (Key.new k) (by norm_num)
      (by rw [tbl_single]; simpa [KVs.new] using hidx)
  have hvS : getVal S1 0 (c.hashF k &&& 31) = Value.new v1 := by
    rw [hS1def, getVal_updCHM]
    apply getVal_setVal_self
    · rw [length_setHash, length_updCHM, length_setKey]
      norm_num
    · rw [vs_setHash, vs_updCHM, vs_setKey, tbl_single]
      simpa [KVs.new] using hidx
  have hnwS : hasNewkvs S1 0 = false := by
    rw [hS1def, hasNewkvs_updCHM, hasNewkvs_setVal, hasNewkvs_setHash,
      hasNewkvs_updCHM, hasNewkvs_setKey, hnw]
  have hvsLenS : c.hashF k &&& 31 < (tbl S1 0)._vs.length := by
    rw [hS1def, vs_updCHM]
    have : (tbl (setVal
        (setHash
          (updCHM (setKey (⟨[KVs.new K V 32], 0⟩ : HMap K V) 0
              (c.hashF k &&& 31) (Key.new k)) 0
            (fun chm => { chm with _slots := chm._slots + 1 }))
          0 (c.hashF k &&& 31) (c.hashF k))
        0 (c.hashF k &&& 31) (Value.new v1)) 0)._vs.length = 32 := by
      rw [vsLen_setVal, vs_setHash, vs_updCHM, vs_setKey, tbl_single]
      simp [KVs.new]
    rw [this]
    exact hidx
  -- second put
  have hput2 := put_existing_slot c (FUEL - 3) S1 0 k v2
    (by rw [hlenS, h31, hkS]; rfl)
    (by rw [hlenS, h31, hkS]; exact peq_new_new k) hnwS
  rw [hlenS, h31] at hput2
  rw [put, hrootS, show FUEL = (FUEL - 3) + 3 from rfl, hput2]
  by_cases hpeq : (Value.new v2).peq (getVal S1 0 (c.hashF k &&& 31)) = true
  · -- idempotent: v2 = v1, state unchanged
    have hv21 : v2 = v1 := by
      rw [hvS] at hpeq
      exact (peq_new_new_val v2 v1).mp hpeq
    rw [if_pos hpeq, Option.some_bind]
    rw [get_found c S1 k (by rw [hrootS, hlenS, h31, hkS]; rfl)
        (by rw [hrootS, hlenS, h31, hkS]; exact peq_new_new k)
        (by rw [hrootS, hlenS, h31, hvS]; rfl)
        (by rw [hrootS, hlenS, h31, hvS]; rfl)]
    rw [hrootS, hlenS, h31, hvS]
    simp [Value.new, hv21]
  · -- overwrite
    rw [if_neg hpeq, Option.some_bind]
    have hcas : put_cas_success S1 0 (c.hashF k &&& 31)
        (getVal S1 0 (c.hashF k &&& 31)) (Value.new v2) true =
        (getVal S1 0 (c.hashF k &&& 31),
          setVal S1 0 (c.hashF k &&& 31) (Value.new v2)) := by
      rw [hvS]
      simp [put_cas_success, Value.is_empty, Value.is_tombstone, Value.new]
    rw [hcas]
    have hroot2 : (setVal S1 0 (c.hashF k &&& 31) (Value.new v2)).root = 0 :=
      hrootS
    have hlen2 : (tbl (setVal S1 0 (c.hashF k &&& 31) (Value.new v2)) 0).len
        = 32 := by rw [len_setVal, hlenS]
    have hk2 : getKey (setVal S1 0 (c.hashF k &&& 31) (Value.new v2)) 0
        (c.hashF k &&& 31) = Key.new k := by rw [getKey_setVal, hkS]
    have hv2 : getVal (setVal S1 0 (c.hashF k &&& 31) (Value.new v2)) 0
        (c.hashF k &&& 31) = Value.new v2 := by
      apply getVal_setVal_self
      · rw [hS1def, length_updCHM, length_setVal, length_setHash,
          length_updCHM, length_setKey]
        norm_num
      · exact hvsLenS
    rw [get_found c _ k (by rw [hroot2, hlen2, h31, hk2]; rfl)
        (by rw [hroot2, hlen2, h31, hk2]; exact peq_new_new k)
        (by rw [hroot2, hlen2, h31, hv2]; rfl)
        (by rw [hroot2, hlen2, h31, hv2]; rfl)]
    rw [hroot2, hlen2, h31, hv2]
    rfl

/-! ### Preservation machinery for the chain invariants -/

theorem tbl_mem {K V : Type} (st : HMap K V) (j : Nat)
    (h : j < st.tables.length) : tbl st j ∈ st.tables := by
  rw [tbl, List.getD_eq_getElem?_getD, List.getElem?_eq_getElem h]
  exact List.getElem_mem h

theorem Pres_refl {K V : Type} (st : HMap K V) : Pres st st :=
  ⟨id, id, le_refl _, fun _ _ => ⟨rfl, le_refl _⟩⟩

theorem Pres_trans {K V : Type} {a b c : HMap K V} (h1 : Pres a b)
    (h2 : Pres b c) : Pres a c := by
  obtain ⟨g1, n1, l1, m1⟩ := h1
  obtain ⟨g2, n2, l2, m2⟩ := h2
  refine ⟨fun h => g2 (g1 h), fun h => n2 (n1 h), le_trans l1 l2, ?_⟩
  intro j hj
  obtain ⟨e1, s1⟩ := m1 j hj
  obtain ⟨e2, s2⟩ := m2 j (lt_of_lt_of_le hj l1)
  exact ⟨e2.trans e1, le_trans s1 s2⟩

/-- A value that may legally be stored in a value cell without breaking
`NoUnprimedTomb`. -/
def VOk {V : Type} (v : Value V) : Prop :=
  ¬(v.is_tombstone = true ∧ v.is_prime = false)

theorem VOk_of_prime {V : Type} (v : Value V) (h : v._is_prime = true) :
    VOk v := by
  intro hc
  rw [Value.is_prime, h] at hc
  exact absurd hc.2 (by simp)

theorem VOk_of_not_tomb {V : Type} (v : Value V)
    (h : v.is_tombstone = false) : VOk v := by
  intro hc
  rw [h] at hc
  exact absurd hc.1 (by simp)

/-- The master single-table-update preservation lemma: replacing table `j`
with a table of the same length, with no smaller `_size`, whose value cells
stay legal, preserves everything `Pres` tracks. -/
theorem pres_setTbl {K V : Type} (st : HMap K V) (j : Nat) (t' : KVs K V)
    (hlen : t'.len = (tbl st j).len)
    (hsize : (tbl st j)._chm._size ≤ t'._chm._size)
    (hvs : (∀ vv ∈ (tbl st j)._vs, VOk vv) → ∀ vv ∈ t'._vs, VOk vv) :
    Pres st (setTbl st j t') := by
  rcases Nat.lt_or_ge j st.tables.length with hj | hj
  · refine ⟨?_, ?_, ?_, ?_⟩
    · intro hG t ht
      simp only [setTbl] at ht
      rcases List.mem_or_eq_of_mem_set ht with h | h
      · exact hG t h
      · rw [h, hlen]
        exact hG _ (tbl_mem st j hj)
    · intro hN t ht
      simp only [setTbl] at ht
      rcases List.mem_or_eq_of_mem_set ht with h | h
      · exact hN t h
      · rw [h]
        exact fun v hv => hvs (hN _ (tbl_mem st j hj)) v hv
    · rw [length_setTbl]
    · intro jj hjj
      by_cases e : j = jj
      · subst e
        rw [tbl_setTbl_self _ _ _ hj]
        exact ⟨hlen, hsize⟩
      · rw [tbl_setTbl_ne _ _ _ _ e]
        exact ⟨rfl, le_refl _⟩
  · rw [setTbl_oob _ _ _ hj]
    exact Pres_refl st

theorem pres_setKey {K V : Type} (st : HMap K V) (j i : Nat) (a : Key K) :
    Pres st (setKey st j i a) := by
  refine pres_setTbl st j _ ?_ (le_refl _) (fun h => h)
  simp [KVs.len]

theorem pres_setHash {K V : Type} (st : HMap K V) (j i h : Nat) :
    Pres st (setHash st j i h) :=
  pres_setTbl st j _ rfl (le_refl _) (fun h => h)

theorem pres_setVal {K V : Type} (st : HMap K V) (j i : Nat) (w : Value V)
    (hw : VOk w) : Pres st (setVal st j i w) := by
  refine pres_setTbl st j _ rfl (le_refl _) ?_
  intro hold vv hvv
  rcases List.mem_or_eq_of_mem_set hvv with h | h
  · exact hold vv h
  · rw [h]; exact hw

theorem pres_updCHM {K V : Type} (st : HMap K V) (j : Nat) (f : CHM → CHM)
    (hf : ∀ chm : CHM, chm._size ≤ (f chm)._size) :
    Pres st (updCHM st j f) :=
  pres_setTbl st j _ rfl (hf _) (fun h => h)

theorem pres_setRoot {K V : Type} (st : HMap K V) (r : Nat) :
    Pres st { st with root := r } :=
  ⟨id, id, le_refl _, fun _ _ => ⟨rfl, le_refl _⟩⟩

theorem pres_append_new {K V : Type} (st : HMap K V) (L : Nat)
    (hL : MIN_SIZE_LOG ≤ L) :
    Pres st { st with tables := st.tables ++ [KVs.new K V (1 <<< L)] } := by
  refine ⟨?_, ?_, ?_, ?_⟩
  · intro hG t ht
    rcases List.mem_append.mp ht with h | h
    · exact hG t h
    · rw [List.mem_singleton.mp h, len_KVs_new]
      exact IsGoodLen_shiftLeft L hL
  · intro hN t ht
    rcases List.mem_append.mp ht with h | h
    · exact hN t h
    · rw [List.mem_singleton.mp h]
      intro v hv hc
      rw [List.eq_of_mem_replicate hv] at hc
      exact absurd hc.1 (by simp [Value.new_empty, Value.is_tombstone])
  · simp
  · intro jj hjj
    constructor
    · simp only [tbl]
      rw [getD_append_left _ _ _ _ hjj]
    · simp only [tbl]
      rw [getD_append_left _ _ _ _ hjj]

theorem pres_resize {K V : Type} (c : HashCtx K) (st : HMap K V) (j : Nat) :
    Pres st (resize c st j).2 := by
  by_cases h : hasNewkvs st j = true
  · simp [resize, h, Pres_refl]
  · have h' : ¬(hasNewkvs st j = true) := h
    simp only [resize, if_neg h']
    exact pres_append_new st _ (log2ge_le_self _ _)

theorem pres_copy_check_and_promote {K V : Type} (st : HMap K V)
    (j w : Nat) : Pres st (copy_check_and_promote st j w) := by
  simp only [copy_check_and_promote]
  set st1 := (if w > 0 then
      updCHM st j (fun chm =>
        { chm with _copy_done := (tbl st j)._chm._copy_done + w })
    else st) with hst1
  have h1 : Pres st st1 := by
    rw [hst1]
    split
    · exact pres_updCHM st j _ (fun chm => le_refl _)
    · exact Pres_refl st
  split
  · exact Pres_trans h1 (pres_setRoot _ _)
  · exact h1

theorem pres_put_cas_success {K V : Type} (st : HMap K V) (j idx : Nat)
    (v putval : Value V) (ent : Bool) (hp : putval.is_tombstone = false) :
    Pres st (put_cas_success st j idx v putval ent).2 := by
  unfold put_cas_success
  simp only [hp, Bool.and_false, Bool.false_eq_true, if_false]
  have h1 : Pres st (setVal st j idx putval) :=
    pres_setVal st j idx putval (VOk_of_not_tomb putval hp)
  split
  · split
    · exact Pres_trans h1 (pres_updCHM _ _ _ (fun chm => Nat.le_succ _))
    · exact h1
  · exact h1

/-! ### The master preservation induction, one step lemma per function -/

theorem step_put_if_match_impl {K V : Type} [DecidableEq K] [DecidableEq V]
    (c : HashCtx K) (fuel : Nat)
    (ihProbe : PresPutProbe (K := K) (V := V) c fuel) :
    PresPutImpl (K := K) (V := V) c (fuel + 1) := by
  intro st j key putval mt expval r st' hp h
  simp only [put_if_match_impl] at h
  exact ihProbe _ _ _ _ _ _ _ _ _ _ _ _ _ hp h

theorem step_get_impl {K V : Type} [DecidableEq K] [DecidableEq V]
    (c : HashCtx K) (fuel : Nat)
    (ihLoop : PresGetLoop (K := K) (V := V) c fuel) :
    PresGetImpl (K := K) (V := V) c (fuel + 1) := by
  intro st j key fullhash r st' h
  simp only [get_impl_supply_hash] at h
  exact ihLoop _ _ _ _ _ _ _ _ _ h

theorem step_help_copy {K V : Type} [DecidableEq K] [DecidableEq V]
    (c : HashCtx K) (fuel : Nat)
    (ihImpl : PresHelpCopyImpl (K := K) (V := V) c fuel) :
    PresHelpCopy (K := K) (V := V) c (fuel + 1) := by
  intro st st' h
  simp only [help_copy] at h
  split at h
  · exact ihImpl _ _ _ _ h
  · cases h
    exact Pres_refl st

theorem step_help_copy_impl {K V : Type} [DecidableEq K] [DecidableEq V]
    (c : HashCtx K) (fuel : Nat)
    (ihLoop : PresHelpCopyLoop (K := K) (V := V) c fuel) :
    PresHelpCopyImpl (K := K) (V := V) c (fuel + 1) := by
  intro st j ca st' h
  simp only [help_copy_impl] at h
  exact ihLoop _ _ _ _ _ _ _ _ h

theorem step_copyChunk {K V : Type} [DecidableEq K] [DecidableEq V]
    (c : HashCtx K) (fuel : Nat)
    (ihSlot : PresCopySlot (K := K) (V := V) c fuel)
    (ihChunk : PresCopyChunk (K := K) (V := V) c fuel) :
    PresCopyChunk (K := K) (V := V) c (fuel + 1) := by
  intro st j base mask i n w st' h
  cases n with
  | zero =>
    simp only [copyChunk] at h
    cases h
    exact Pres_refl st
  | succ n =>
    simp only [copyChunk] at h
    cases hh : copy_slot c fuel st j ((base + i) &&& mask) with
    | none => simp [hh] at h
    | some bs =>
      obtain ⟨b, st1⟩ := bs
      simp only [hh] at h
      cases hh2 : copyChunk c fuel st1 j base mask (i + 1) n with
      | none => simp [hh2] at h
      | some ws =>
        obtain ⟨w2, st2⟩ := ws
        simp only [hh2, Option.some.injEq, Prod.mk.injEq] at h
        obtain ⟨hw, hst⟩ := h
        subst hst
        exact Pres_trans (ihSlot _ _ _ _ _ hh) (ihChunk _ _ _ _ _ _ _ _ hh2)

theorem step_copy_slot_and_check {K V : Type} [DecidableEq K]
    [DecidableEq V] (c : HashCtx K) (fuel : Nat)
    (ihSlot : PresCopySlot (K := K) (V := V) c fuel)
    (ihHelp : PresHelpCopy (K := K) (V := V) c fuel) :
    PresCopySlotCheck (K := K) (V := V) c (fuel + 1) := by
  intro st j idx sh t st' h
  simp only [copy_slot_and_check] at h
  cases hh : copy_slot c fuel st j idx with
  | none => simp [hh] at h
  | some bs =>
    obtain ⟨b, st1⟩ := bs
    simp only [hh] at h
    have h1 : Pres st st1 := ihSlot _ _ _ _ _ hh
    have h2 : Pres st (if b = true then copy_check_and_promote st1 j 1
        else st1) := by
      split
      · exact Pres_trans h1 (pres_copy_check_and_promote _ _ _)
      · exact h1
    cases hh2 : (if sh = true then
        help_copy c fuel
          (if b = true then copy_check_and_promote st1 j 1 else st1)
      else some (if b = true then copy_check_and_promote st1 j 1 else st1))
      with
    | none => rw [hh2] at h; exact absurd h (by simp)
    | some st2 =>
      rw [hh2] at h
      simp only [Option.some.injEq, Prod.mk.injEq] at h
      obtain ⟨ht, hst⟩ := h
      subst hst
      have h3 : Pres (if b = true then copy_check_and_promote st1 j 1
          else st1) st2 := by
        by_cases hsh : sh = true
        · rw [if_pos hsh] at hh2
          exact ihHelp _ _ hh2
        · rw [if_neg hsh] at hh2
          rw [Option.some_inj.mp hh2]
          exact Pres_refl _
      exact Pres_trans h2 h3

theorem step_getLoop {K V : Type} [DecidableEq K] [DecidableEq V]
    (c : HashCtx K) (fuel : Nat)
    (ihGet : PresGetImpl (K := K) (V := V) c fuel)
    (ihCheck : PresCopySlotCheck (K := K) (V := V) c fuel)
    (ihHelp : PresHelpCopy (K := K) (V := V) c fuel)
    (ihLoop : PresGetLoop (K := K) (V := V) c fuel) :
    PresGetLoop (K := K) (V := V) c (fuel + 1) := by
  intro st j key fullhash len idx cnt r st' h
  simp only [getLoop] at h
  split at h
  · cases h
    exact Pres_refl st
  · split at h
    · split at h
      · split at h
        · cases h
          exact Pres_refl st
        · cases h
          exact Pres_refl st
      · cases hh : copy_slot_and_check c fuel st j idx true with
        | none => rw [hh] at h; exact absurd h (by simp)
        | some ts =>
          obtain ⟨t2, st2⟩ := ts
          simp only [hh] at h
          exact Pres_trans (ihCheck _ _ _ _ _ _ hh) (ihGet _ _ _ _ _ _ h)
    · split at h
      · split at h
        · cases hh : help_copy c fuel st with
          | none => rw [hh] at h; exact absurd h (by simp)
          | some st2 =>
            simp only [hh] at h
            exact Pres_trans (ihHelp _ _ hh) (ihGet _ _ _ _ _ _ h)
        · cases h
          exact Pres_refl st
      · exact ihLoop _ _ _ _ _ _ _ _ _ h

theorem step_putProbe {K V : Type} [DecidableEq K] [DecidableEq V]
    (c : HashCtx K) (fuel : Nat)
    (ihImpl : PresPutImpl (K := K) (V := V) c fuel)
    (ihWrite : PresPutWrite (K := K) (V := V) c fuel)
    (ihHelp : PresHelpCopy (K := K) (V := V) c fuel)
    (ihProbe : PresPutProbe (K := K) (V := V) c fuel) :
    PresPutProbe (K := K) (V := V) c (fuel + 1) := by
  intro st j key putval mt expval ent fullhash len idx cnt r st' hp h
  simp only [putProbe] at h
  split at h
  · split at h
    · cases h
      exact Pres_refl st
    · have hPres3 : Pres st (setHash (updCHM (setKey st j idx key) j
          (fun chm => { chm with _slots := chm._slots + 1 })) j idx
          fullhash) :=
        Pres_trans (pres_setKey st j idx key)
          (Pres_trans (pres_updCHM _ j
              (fun chm => { chm with _slots := chm._slots + 1 })
              (fun chm => le_refl _))
            (pres_setHash _ _ _ _))
      exact Pres_trans hPres3 (ihWrite _ _ _ _ _ _ _ _ _ _ _ hp h)
  · split at h
    · exact ihWrite _ _ _ _ _ _ _ _ _ _ _ hp h
    · split at h
      · cases hh : (if ent = true then
            help_copy c fuel (resize c st j).2
          else some (resize c st j).2) with
        | none => rw [hh] at h; exact absurd h (by simp)
        | some st4 =>
          simp only [hh] at h
          have h1 : Pres st (resize c st j).2 := pres_resize c st j
          have h2 : Pres (resize c st j).2 st4 := by
            by_cases he : ent = true
            · rw [if_pos he] at hh
              exact ihHelp _ _ hh
            · rw [if_neg he] at hh
              rw [← Option.some_inj.mp hh]
              exact Pres_refl _
          exact Pres_trans h1 (Pres_trans h2 (ihImpl _ _ _ _ _ _ _ _ hp h))
      · exact ihProbe _ _ _ _ _ _ _ _ _ _ _ _ _ hp h

theorem step_putWrite {K V : Type} [DecidableEq K] [DecidableEq V]
    (c : HashCtx K) (fuel : Nat)
    (ihImpl : PresPutImpl (K := K) (V := V) c fuel)
    (ihCheck : PresCopySlotCheck (K := K) (V := V) c fuel) :
    PresPutWrite (K := K) (V := V) c (fuel + 1) := by
  intro st j key putval mt expval ent idx cnt r st' hp h
  simp only [putWrite] at h
  split at h
  · cases h
    exact Pres_refl st
  · by_cases hC : (hasNewkvs st j &&
        (((getVal st j idx).is_tombstone && (tbl st j).table_full cnt) ||
          (getVal st j idx).is_prime)) = true
    · rw [if_pos hC] at h
      have h1 : Pres st (resize c st j).2 := pres_resize c st j
      split at h
      · split at h
        · exact absurd h (by simp)
        · rename_i ckvs st3 heq
          exact Pres_trans h1 (Pres_trans (ihCheck _ _ _ _ _ _ heq)
            (ihImpl _ _ _ _ _ _ _ _ hp h))
      · split at h
        · split at h
          · cases h
            exact h1
          · simp only [Option.some.injEq, Prod.ext_iff] at h
            obtain ⟨hr, hst⟩ := h
            rw [← hst]
            exact Pres_trans h1 (pres_put_cas_success _ _ _ _ _ _ hp)
        · simp only [Option.some.injEq, Prod.ext_iff] at h
          obtain ⟨hr, hst⟩ := h
          rw [← hst]
          exact Pres_trans h1 (pres_put_cas_success _ _ _ _ _ _ hp)
    · rw [if_neg hC] at h
      split at h
      · split at h
        · exact absurd h (by simp)
        · rename_i ckvs st3 heq
          exact Pres_trans (ihCheck _ _ _ _ _ _ heq)
            (ihImpl _ _ _ _ _ _ _ _ hp h)
      · split at h
        · split at h
          · cases h
            exact Pres_refl st
          · simp only [Option.some.injEq, Prod.ext_iff] at h
            obtain ⟨hr, hst⟩ := h
            rw [← hst]
            exact pres_put_cas_success _ _ _ _ _ _ hp
        · simp only [Option.some.injEq, Prod.ext_iff] at h
          obtain ⟨hr, hst⟩ := h
          rw [← hst]
          exact pres_put_cas_success _ _ _ _ _ _ hp

theorem copy_slot_tail_pres {K V : Type} [DecidableEq K] [DecidableEq V]
    (c : HashCtx K) (fuel : Nat)
    (ihImpl : PresPutImpl (K := K) (V := V) c fuel)
    (st stB : HMap K V) (j idx : Nat) (key : Key K) (ov : Value V)
    (b : Bool) (st' : HMap K V) (hPresB : Pres st stB)
    (hnt : ov.is_tombprime = false → ov.get_unprime.is_tombstone = false)
    (h : (if ov.is_tombprime = true then some (false, stB)
        else
          match put_if_match_impl c fuel stB (j + 1) key ov.get_unprime
              .MatchValue (some Value.new_empty) with
          | none => none
          | some (_, st2) =>
            if (getVal st2 j idx).is_tombprime = true then some (false, st2)
            else some (true, setVal st2 j idx Value.new_tombprime)) =
      some (b, st')) :
    Pres st st' := by
  split at h
  · cases h
    exact hPresB
  · rename_i hntp
    split at h
    · exact absurd h (by simp)
    · rename_i r2 st2 heq2
      have hmid : Pres stB st2 :=
        ihImpl _ _ _ _ _ _ _ _ (hnt (eq_false_of_ne_true hntp)) heq2
      split at h
      · cases h
        exact Pres_trans hPresB hmid
      · cases h
        exact Pres_trans hPresB (Pres_trans hmid
          (pres_setVal _ _ _ _ (VOk_of_prime _ rfl)))

theorem step_copy_slot {K V : Type} [DecidableEq K] [DecidableEq V]
    (c : HashCtx K) (fuel : Nat)
    (ihImpl : PresPutImpl (K := K) (V := V) c fuel) :
    PresCopySlot (K := K) (V := V) c (fuel + 1) := by
  intro st j idx b st' h
  simp only [copy_slot] at h
  split at h
  · cases h
    exact pres_setKey st j idx Key.new_tombstone
  · split at h
    · cases h
      exact Pres_refl st
    · split at h
      · -- frozen = (none, stA): the slot was frozen to TOMBPRIME
        rename_i stA heq
        cases h
        split at heq
        · split at heq
          · split at heq
            · injection heq with h1 h2
              rw [← h2]
              exact pres_setVal _ _ _ _ (VOk_of_prime _ rfl)
            · exact absurd heq (by simp)
          · split at heq
            · injection heq with h1 h2
              rw [← h2]
              exact pres_setVal _ _ _ _ (VOk_of_prime _ rfl)
            · exact absurd heq (by simp)
        · exact absurd heq (by simp)
      · -- frozen = (some ov, stB): transfer to the successor and retire
        rename_i ov stB heq
        split at heq
        · split at heq
          · split at heq
            · exact absurd heq (by simp)
            · rename_i hvt
              exact absurd rfl hvt
          · split at heq
            · exact absurd heq (by simp)
            · rename_i hvt
              injection heq with h1 h2
              injection h1 with h1
              refine copy_slot_tail_pres c fuel ihImpl st stB j idx _ ov b
                st' ?_ ?_ h
              · rw [← h2]
                exact pres_setVal _ _ _ _ (VOk_of_prime _ rfl)
              · intro _
                rw [← h1]
                exact decide_eq_false hvt
        · rename_i hpr
          injection heq with h1 h2
          injection h1 with h1
          refine copy_slot_tail_pres c fuel ihImpl st stB j idx _ ov b st'
            ?_ ?_ h
          · rw [← h2]
            exact Pres_refl st
          · intro htf
            have hprime : ov.is_prime = true := by
              rw [← h1]
              rcases Bool.eq_false_or_eq_true (getVal st j idx).is_prime with
                ht | hf
              · exact ht
              · exact absurd (by rw [hf]; rfl) hpr
            have htomb : ov.is_tombstone = false := by
              have he : ov.is_tombprime = (ov.is_prime && ov.is_tombstone) :=
                rfl
              rw [he, hprime, Bool.true_and] at htf
              exact htf
            exact htomb

theorem step_helpCopyLoop {K V : Type} [DecidableEq K] [DecidableEq V]
    (c : HashCtx K) (fuel : Nat)
    (ihChunk : PresCopyChunk (K := K) (V := V) c fuel)
    (ihLoop : PresHelpCopyLoop (K := K) (V := V) c fuel) :
    PresHelpCopyLoop (K := K) (V := V) c (fuel + 1) := by
  intro st j ca oldlen mcw ps ci st' h
  simp only [helpCopyLoop] at h
  split at h
  · by_cases hps : (!ps) = true
    · rw [if_pos hps] at h
      by_cases hci : (tbl st j)._chm._copy_idx < oldlen <<< 1
      · rw [if_pos hci] at h
        split at h
        · exact absurd h (by simp)
        · rename_i w st2 hclaim
          have h1 : Pres st st2 :=
            Pres_trans (pres_updCHM st j
                (fun chm => { chm with
                  _copy_idx := (tbl st j)._chm._copy_idx + mcw })
                (fun chm => le_refl _))
              (ihChunk _ _ _ _ _ _ _ _ hclaim)
          have h3 : Pres st (if w > 0 then copy_check_and_promote st2 j w
              else st2) := by
            split
            · exact Pres_trans h1 (pres_copy_check_and_promote _ _ _)
            · exact h1
          split at h
          · cases h
            exact h3
          · exact Pres_trans h3 (ihLoop _ _ _ _ _ _ _ _ h)
      · rw [if_neg hci] at h
        split at h
        · exact absurd h (by simp)
        · rename_i w st2 hclaim
          have h1 : Pres st st2 := ihChunk _ _ _ _ _ _ _ _ hclaim
          have h3 : Pres st (if w > 0 then copy_check_and_promote st2 j w
              else st2) := by
            split
            · exact Pres_trans h1 (pres_copy_check_and_promote _ _ _)
            · exact h1
          split at h
          · cases h
            exact h3
          · exact Pres_trans h3 (ihLoop _ _ _ _ _ _ _ _ h)
    · rw [if_neg hps] at h
      split at h
      · exact absurd h (by simp)
      · rename_i w st2 hclaim
        have h1 : Pres st st2 := ihChunk _ _ _ _ _ _ _ _ hclaim
        have h3 : Pres st (if w > 0 then copy_check_and_promote st2 j w
            else st2) := by
          split
          · exact Pres_trans h1 (pres_copy_check_and_promote _ _ _)
          · exact h1
        split at h
        · cases h
          exact h3
        · exact Pres_trans h3 (ihLoop _ _ _ _ _ _ _ _ h)
  · cases h
    exact pres_copy_check_and_promote _ _ _

/-- The master preservation theorem: every interpreter function, at every
fuel, preserves the chain invariants and the size monotonicity. -/
theorem interp_pres {K V : Type} [DecidableEq K] [DecidableEq V]
    (c : HashCtx K) : ∀ fuel : Nat, PresAll (K := K) (V := V) c fuel := by
  intro fuel
  induction fuel with
  | zero =>
    refine ⟨?_, ?_, ?_, ?_, ?_, ?_, ?_, ?_, ?_, ?_, ?_⟩
    · intro st j key putval mt expval r st' hp h
      simp [put_if_match_impl] at h
    · intro st j key putval mt expval ent fullhash len idx cnt r st' hp h
      simp [putProbe] at h
    · intro st j key putval mt expval ent idx cnt r st' hp h
      simp [putWrite] at h
    · intro st j key fullhash r st' h
      simp [get_impl_supply_hash] at h
    · intro st j key fullhash len idx cnt r st' h
      simp [getLoop] at h
    · intro st j idx b st' h
      simp [copy_slot] at h
    · intro st j idx sh t st' h
      simp [copy_slot_and_check] at h
    · intro st st' h
      simp [help_copy] at h
    · intro st j ca st' h
      simp [help_copy_impl] at h
    · intro st j ca oldlen mcw ps ci st' h
      simp [helpCopyLoop] at h
    · intro st j base mask i n w st' h
      simp [copyChunk] at h
  | succ fuel ih =>
    obtain ⟨ihImpl, ihProbe, ihWrite, ihGet, ihLoop, ihSlot, ihCheck,
      ihHelp, ihHImpl, ihHLoop, ihChunk⟩ := ih
    exact ⟨step_put_if_match_impl c fuel ihProbe,
      step_putProbe c fuel ihImpl ihWrite ihHelp ihProbe,
      step_putWrite c fuel ihImpl ihCheck,
      step_get_impl c fuel ihLoop,
      step_getLoop c fuel ihGet ihCheck ihHelp ihLoop,
      step_copy_slot c fuel ihImpl,
      step_copy_slot_and_check c fuel ihSlot ihHelp,
      step_help_copy c fuel ihHImpl,
      step_help_copy_impl c fuel ihHLoop,
      step_helpCopyLoop c fuel ihChunk ihHLoop,
      step_copyChunk c fuel ihSlot ihChunk⟩

/-- The public `put` satisfies `Pres` (its `putval` is never a tombstone). -/
theorem put_pres {K V : Type} [DecidableEq K] [DecidableEq V] (c : HashCtx K)
    (st : HMap K V) (k : K) (v : V) (r : Value V) (st' : HMap K V)
    (h : put c st k v = some (r, st')) : Pres st st' := by
  rw [put] at h
  exact (interp_pres c FUEL).1 st st.root (Key.new k) (Value.new v)
    .MatchAll none r st' rfl h

/-- The public `get` satisfies `Pres`. -/
theorem get_pres {K V : Type} [DecidableEq K] [DecidableEq V] (c : HashCtx K)
    (st : HMap K V) (k : K) (o : Option V) (st' : HMap K V)
    (h : get c st k = some (o, st')) : Pres st st' := by
  rw [get] at h
  cases hg : get_impl_supply_hash c FUEL st st.root (Key.new k)
      (keyHash c (Key.new k)) with
  | none => rw [hg] at h; exact absurd h (by simp)
  | some p =>
    rw [hg] at h
    simp only [Option.map_some', Option.some.injEq, Prod.ext_iff] at h
    obtain ⟨ho, hst⟩ := h
    rw [← hst]
    exact (interp_pres c FUEL).2.2.2.1 _ _ _ _ _ _ hg

theorem goodLens_new_with_size (K V : Type) (sz : Nat) :
    GoodLens (new_with_size K V sz) := by
  intro t ht
  rw [List.mem_singleton.mp ht, len_KVs_new]
  exact IsGoodLen_shiftLeft _ (log2ge_le_self _ _)

theorem noUT_new_with_size (K V : Type) (sz : Nat) :
    NoUnprimedTomb (new_with_size K V sz) := by
  intro t ht v hv hc
  rw [List.mem_singleton.mp ht] at hv
  rw [List.eq_of_mem_replicate hv] at hc
  exact absurd hc.1 (by simp [Value.new_empty, Value.is_tombstone])

/-! ### Claim C7 -/

/-- C7: every table ever created has a power-of-two length of at least
`2^MIN_SIZE_LOG = 8`: the tables made by `new_with_size` (hence `new`) and
by `resize` satisfy it, and the invariant over the whole chain of tables is
preserved by `put` and `get` (and thereby by everything they call:
`put_if_match`, copy helpers, and promotion). -/
theorem C7_table_lengths {K V : Type} [DecidableEq K] [DecidableEq V] :
    (∀ sz, GoodLens (new_with_size K V sz)) ∧
      (∀ (c : HashCtx K) (st : HMap K V) (j : Nat),
        GoodLens st → GoodLens (resize c st j).2) ∧
      (∀ (c : HashCtx K) (st : HMap K V) (k : K) (v : V) (r : Value V)
        (st' : HMap K V), put c st k v = some (r, st') →
        GoodLens st → GoodLens st') ∧
      (∀ (c : HashCtx K) (st : HMap K V) (k : K) (o : Option V)
        (st' : HMap K V), get c st k = some (o, st') →
        GoodLens st → GoodLens st') := by
  refine ⟨goodLens_new_with_size K V, ?_, ?_, ?_⟩
  · intro c st j hG
    exact (pres_resize c st j).1 hG
  · intro c st k v r st' h hG
    exact (put_pres c st k v r st' h).1 hG
  · intro c st k o st' h hG
    exact (get_pres c st k o st' h).1 hG

/-- C7 witness: the invariant holds on the fresh map and is carried across
a concrete `put` and `get`. -/
theorem C7_witness :
    GoodLens (new_with_size Nat Nat 10) ∧ GoodLens (new Nat Nat) ∧
      (put idCtx (new Nat Nat) 0 1).isSome = true ∧
      ((put idCtx (new Nat Nat) 0 1).map
          (fun p => decide (GoodLens p.2))).getD false = true := by
  have hs : (put idCtx (new Nat Nat) 0 1).isSome = true := by decide
  refine ⟨(C7_table_lengths (K := Nat) (V := Nat)).1 10, by decide, hs, ?_⟩
  cases hp : put idCtx (new Nat Nat) 0 1 with
  | none => rw [hp] at hs; exact absurd hs (by simp)
  | some p =>
    simp only [Option.map_some', Option.getD_some, decide_eq_true_eq]
    exact (C7_table_lengths (K := Nat) (V := Nat)).2.2.1 idCtx (new Nat Nat)
      0 1 p.1 p.2 (by rw [hp]) (by decide)

/-! ### Claim C10 -/

/-- C10: in executions through the public interface, no value installed by
`put` is a tombstone — the `putval` built by `put` is never a tombstone, so
the early-return branch of `put_if_match` for a tombstone `newval` has a
false guard; no table's `live_size` (`_size`) is ever decremented (sizes are
monotone across `put` and `get`, per table of the chain); and starting from
a fresh map no value cell ever holds an unprimed tombstone. -/
theorem C10_no_tombstone_writes {K V : Type} [DecidableEq K]
    [DecidableEq V] :
    (∀ v : V, (Value.new v).is_tombstone = false) ∧
      (∀ sz, NoUnprimedTomb (new_with_size K V sz)) ∧
      (∀ (c : HashCtx K) (st : HMap K V) (k : K) (v : V) (r : Value V)
        (st' : HMap K V), put c st k v = some (r, st') →
        (NoUnprimedTomb st → NoUnprimedTomb st') ∧ SizesMono st st') ∧
      (∀ (c : HashCtx K) (st : HMap K V) (k : K) (o : Option V)
        (st' : HMap K V), get c st k = some (o, st') →
        (NoUnprimedTomb st → NoUnprimedTomb st') ∧ SizesMono st st') := by
  refine ⟨fun v => rfl, noUT_new_with_size K V, ?_, ?_⟩
  · intro c st k v r st' h
    exact ⟨(put_pres c st k v r st' h).2.1, (put_pres c st k v r st' h).2.2⟩
  · intro c st k o st' h
    exact ⟨(get_pres c st k o st' h).2.1, (get_pres c st k o st' h).2.2⟩

/-- C10 witness: the invariant and the size monotonicity across a concrete
`put` on the fresh map. -/
theorem C10_witness :
    NoUnprimedTomb (new Nat Nat) ∧
      (put idCtx (new Nat Nat) 0 1).isSome = true ∧
      ((put idCtx (new Nat Nat) 0 1).map
          (fun p => decide (NoUnprimedTomb p.2) &&
            decide (SizesMono (new Nat Nat) p.2))).getD false = true := by
  have hs : (put idCtx (new Nat Nat) 0 1).isSome = true := by decide
  refine ⟨by decide, hs, ?_⟩
  cases hp : put idCtx (new Nat Nat) 0 1 with
  | none => rw [hp] at hs; exact absurd hs (by simp)
  | some p =>
    simp only [Option.map_some', Option.getD_some, Bool.and_eq_true,
      decide_eq_true_eq]
    have h := (C10_no_tombstone_writes (K := Nat) (V := Nat)).2.2.1 idCtx
      (new Nat Nat) 0 1 p.1 p.2 (by rw [hp])
    exact ⟨h.1 (by decide), h.2⟩

/-! ### Claim C1 -/

/-- C1: in a single-threaded run from a fresh map, `put(k, v)` followed by
`get(k)` returns `Some(v)`, and `put(k, v1); put(k, v2); get(k)` returns
`Some(v2)` — for every key `k`, values `v, v1, v2`, every hash function and
either state of the resize clock. -/
theorem C1_put_get_laws {K V : Type} [DecidableEq K] [DecidableEq V]
    (c : HashCtx K) (k : K) (v v1 v2 : V) :
    ((put c (new K V) k v).bind (fun p => (get c p.2 k).map (fun q => q.1)) =
        some (some v)) ∧
      (((put c (new K V) k v1).bind (fun p => put c p.2 k v2)).bind
          (fun p => (get c p.2 k).map (fun q => q.1)) = some (some v2)) :=
  ⟨put_get_law1 c k v, put_get_law2 c k v1 v2⟩

/-- C2 witness: the bound applied to the length-64 counterexample table
(fuel 11 suffices from reprobe count 0), and the `reprobe_limit` equation
on it. -/
theorem C2_witness :
    hasNewkvs c2st 0 = false ∧
      (∀ i < (tbl c2st 0)._vs.length, (getVal c2st 0 i).is_prime = false) ∧
      REPROBE_LIMIT - 0 < 11 ∧
      (tbl c2st 0).reprobe_limit = REPROBE_LIMIT + ((tbl c2st 0).len <<< 2) ∧
      ∃ r, getLoop idCtx 11 c2st 0 (Key.new 64) 64 64 0 0 = some (r, c2st) :=
  ⟨by decide, by decide, by decide,
    (C2_get_probe_bound idCtx 11 c2st 0 (Key.new 64) 64 64 0 0).1,
    (C2_get_probe_bound idCtx 11 c2st 0 (Key.new 64) 64 64 0 0).2.1
      (by decide) (by decide) (by decide)⟩
